import Mathlib

/-!
# ereader: EPUB ingestion, pagination and progress store

A shallow embedding of the Go packages `internal/format/epub` and
`internal/viewer/cli` of `edfun317/ereader`, with the statements the
specification makes about them.

Modelling conventions.

* A Go `string` / `[]byte` is the list of its runes (`GoString`); this covers
  every valid UTF-8 string.  `len` is the UTF-8 byte length.  Offsets returned
  by `strings.Index` and used in slice expressions are rune positions; for the
  ASCII markers searched by the code this changes no comparison between two
  offsets of the same string.
* A Go call either returns a value, returns a non-nil `error`, or panics
  (`Outcome`).
* Go `int` values are `Int`; counters that only count up from zero are `Nat`.
* Library calls (`strings`, `unicode`, `path/filepath` on a Unix target,
  `encoding/json`, `os`, `strconv`) are modelled by their documented behaviour;
  the XML decoder and the HTML parser are parameters; the key source is the
  sequence of events it will deliver; what the viewer prints is left out.
-/

namespace Ereader

/-- Go string (valid UTF-8), as the sequence of its runes. -/
abbrev GoString := List Char

/-- Result of a Go call: a value, a non-nil error, or a runtime panic. -/
inductive Outcome (α : Type) where
  | ok (a : α)
  | err (msg : String)
  | panic (msg : String)
  deriving DecidableEq, Repr

/-- Byte length of a string, Go `len(s)`. -/
def len (s : GoString) : Nat := (s.map Char.utf8Size).sum

/-- Slice expression `s[a:b]`; out-of-order or out-of-range bounds panic. -/
def slice (s : GoString) (a b : Int) : Outcome GoString :=
  if 0 ≤ a ∧ a ≤ b ∧ b ≤ (s.length : Int) then
    .ok ((s.drop a.toNat).take (b.toNat - a.toNat))
  else .panic "slice bounds out of range"

/-- Go `unicode.IsSpace`: the Latin-1 cases and the White_Space table. -/
def unicode.IsSpace (r : Char) : Bool :=
  let n := r.toNat
  if n ≤ 0xFF then
    n = 0x09 || n = 0x0A || n = 0x0B || n = 0x0C || n = 0x0D || n = 0x20 ||
      n = 0x85 || n = 0xA0
  else
    n = 0x1680 || (0x2000 ≤ n && n ≤ 0x200A) || n = 0x2028 || n = 0x2029 ||
      n = 0x202F || n = 0x205F || n = 0x3000

/-- Scan of `strings.Index`: first position at or after `i` where `substr` begins. -/
def strings.indexFrom (substr : GoString) : GoString → Nat → Int
  | [], i => if substr = [] then (i : Int) else -1
  | c :: cs, i =>
    if substr.isPrefixOf (c :: cs) then (i : Int) else strings.indexFrom substr cs (i + 1)

/-- Go `strings.Index`: position of the first instance of `substr` in `s`, or -1. -/
def strings.Index (s substr : GoString) : Int := strings.indexFrom substr s 0

/-- Go `strings.TrimSpace`: leading and trailing white space removed. -/
def strings.TrimSpace (s : GoString) : GoString :=
  ((s.dropWhile unicode.IsSpace).reverse.dropWhile unicode.IsSpace).reverse

/-- Scan of `strings.Fields`; `cur` is the field being read, reversed. -/
def strings.fieldsFrom : GoString → GoString → List GoString
  | [], cur => if cur = [] then [] else [cur.reverse]
  | c :: cs, cur =>
    if unicode.IsSpace c then
      if cur = [] then strings.fieldsFrom cs [] else cur.reverse :: strings.fieldsFrom cs []
    else strings.fieldsFrom cs (c :: cur)

/-- Go `strings.Fields`: the maximal runs of non-space runes, in order. -/
def strings.Fields (s : GoString) : List GoString := strings.fieldsFrom s []

/-- Scan of `strings.Split` for a non-empty separator: `skip` runes of a matched
separator remain to be consumed, `cur` is the piece being read, reversed. -/
def strings.splitFrom (sep : GoString) : GoString → Nat → GoString → List GoString
  | [], _, cur => [cur.reverse]
  | _ :: cs, skip + 1, cur => strings.splitFrom sep cs skip cur
  | c :: cs, 0, cur =>
    if sep.isPrefixOf (c :: cs) then
      cur.reverse :: strings.splitFrom sep cs (sep.length - 1) []
    else strings.splitFrom sep cs 0 (c :: cur)

/-- Go `strings.Split(s, sep)` for a non-empty `sep`. -/
def strings.Split (s sep : GoString) : List GoString := strings.splitFrom sep s 0 []

/-- Go `strings.EqualFold` on ASCII letters (simple case folding of other
scripts is left out: such runes compare by identity). -/
def strings.EqualFold (s t : GoString) : Bool :=
  s.map Char.toLower == t.map Char.toLower

/-- Element stack of `filepath.Clean`: `.` and empty elements vanish, `..`
removes the element before it when there is one to remove. -/
def filepath.cleanElems (rooted : Bool) : List GoString → List GoString → List GoString
  | [], out => out.reverse
  | e :: es, out =>
    if e = [] ∨ e = ['.'] then filepath.cleanElems rooted es out
    else if e = ['.', '.'] then
      match out with
      | [] => filepath.cleanElems rooted es (if rooted then [] else [e])
      | top :: out' =>
        if top = ['.', '.'] then filepath.cleanElems rooted es (e :: top :: out')
        else filepath.cleanElems rooted es out'
    else filepath.cleanElems rooted es (e :: out)

/-- Go `filepath.Clean` with separator `/`. -/
def filepath.Clean (path : GoString) : GoString :=
  if path = [] then ['.'] else
  let rooted := path.head? = some '/'
  let elems := filepath.cleanElems rooted (path.splitOn '/') []
  let body := (if rooted then ['/'] else []) ++ List.intercalate ['/'] elems
  if body = [] then ['.'] else body

/-- Go `filepath.Join` of two elements. -/
def filepath.Join (a b : GoString) : GoString :=
  if a ≠ [] then filepath.Clean (a ++ '/' :: b)
  else if b ≠ [] then filepath.Clean b
  else []

/-- Go `filepath.Dir`: everything up to the last separator, cleaned. -/
def filepath.Dir (path : GoString) : GoString :=
  filepath.Clean (path.reverse.dropWhile (· ≠ '/')).reverse

/-! ## `internal/core` -/

/-- Go struct `core.BookMetadata`. -/
structure BookMetadata where
  Title : GoString := []
  Author : GoString := []
  Publisher : GoString := []
  Language : GoString := []
  deriving DecidableEq, Repr

/-- Go struct `core.Chapter`. -/
structure Chapter where
  Index : Int
  Title : GoString
  Content : GoString
  deriving DecidableEq, Repr

/-- Go struct `core.Book`. -/
structure Book where
  Metadata : BookMetadata := {}
  Chapters : List Chapter := []
  deriving DecidableEq, Repr

/-! ## `internal/format/epub` -/

/-- Go struct `rootFile` of `types.go`. -/
structure rootFile where
  FullPath : GoString
  MediaType : GoString
  deriving DecidableEq, Repr

/-- Go struct `container` of `types.go`. -/
structure container where
  RootFiles : List rootFile
  deriving DecidableEq, Repr

/-- Go struct `Metadata` of `types.go`. -/
structure Metadata where
  Title : GoString := []
  Creator : GoString := []
  Publisher : GoString := []
  Language : GoString := []
  deriving DecidableEq, Repr

/-- Go struct `Item` of `types.go`. -/
structure Item where
  ID : GoString
  Href : GoString
  MediaType : GoString
  deriving DecidableEq, Repr

/-- Go struct `ItemRef` of `types.go`. -/
structure ItemRef where
  IDRef : GoString
  deriving DecidableEq, Repr

/-- Go struct `Package` of `types.go` (manifest and spine flattened to their lists). -/
structure Package where
  Metadata : Metadata := {}
  Items : List Item
  ItemRefs : List ItemRef
  deriving DecidableEq, Repr

/-- The XML decoder applied to the bytes of the two descriptors. -/
structure XMLDecoder where
  decodeContainer : GoString → Except String container
  decodePackage : GoString → Except String Package

/-- One member of the zip archive: its name and what opening and reading it gives. -/
structure ZipFile where
  Name : GoString
  contents : Except String GoString

/-- Go struct `EPUBReader`; `book = none` is the nil pointer. -/
structure EPUBReader where
  file : List ZipFile := []
  book : Option Book := none
  rootFile : GoString := []
  contentPath : GoString := []

/-- Go map with string keys. -/
abbrev GoMap (β : Type) := GoString → Option β

/-- The empty map of `make(map[string]T)`. -/
def GoMap.empty {β : Type} : GoMap β := fun _ => none

/-- Map assignment `m[k] = v`. -/
def GoMap.set {β : Type} (m : GoMap β) (k : GoString) (v : β) : GoMap β :=
  fun k' => if k' = k then some v else m k'

/-- Source `findFile`: the first member whose name matches case-insensitively. -/
def findFile (r : EPUBReader) (name : GoString) : Except String GoString :=
  match r.file.find? (fun f => strings.EqualFold f.Name name) with
  | some f => f.contents
  | none => .error ("file not found in EPUB: " ++ String.mk name)

/-- Source `extractTitle`. -/
def extractTitle (content : GoString) : Outcome GoString :=
  let titleStart := strings.Index content "<title>".toList
  if titleStart = -1 then .ok "Untitled".toList
  else
    let titleStart := titleStart + 7
    let titleEnd := strings.Index content "</title>".toList
    if titleEnd = -1 then .ok "Untitled".toList
    else
      match slice content titleStart titleEnd with
      | .ok s => .ok (strings.TrimSpace s)
      | .err m => .err m
      | .panic m => .panic m

/-- Source `readContainer`. -/
def readContainer (xml : XMLDecoder) (r : EPUBReader) : Outcome EPUBReader :=
  match findFile r "META-INF/container.xml".toList with
  | .error e => .err e
  | .ok containerFile =>
    match xml.decodeContainer containerFile with
    | .error e => .err e
    | .ok container =>
      match container.RootFiles with
      | [] => .err "no rootfile found in container.xml"
      | first :: _ =>
        .ok { r with rootFile := first.FullPath, contentPath := filepath.Dir first.FullPath }

/-- Source `readChapter`. -/
def readChapter (r : EPUBReader) (item : Item) (index : Int) : Outcome Chapter :=
  let chapterPath := filepath.Join r.contentPath item.Href
  match findFile r chapterPath with
  | .error e => .err e
  | .ok content =>
    match extractTitle content with
    | .ok title => .ok { Index := index, Title := title, Content := content }
    | .err m => .err m
    | .panic m => .panic m

/-- The manifest lookup table built by `readPackage`: later items overwrite earlier ones. -/
def manifestItems (items : List Item) : GoMap Item :=
  items.foldl (fun m item => m.set item.ID item) GoMap.empty

/-- The spine loop of `readPackage`; `i` is the position of the head entry in the
spine, `chapters` is `r.book.Chapters` so far. -/
def readPackage.loop (r : EPUBReader) (m : GoMap Item) :
    List ItemRef → Nat → List Chapter → Outcome (List Chapter)
  | [], _, chapters => .ok chapters
  | itemRef :: rest, i, chapters =>
    match m itemRef.IDRef with
    | none => readPackage.loop r m rest (i + 1) chapters
    | some item =>
      if item.MediaType = "application/xhtml+xml".toList ∨
          item.MediaType = "application/x-dtbook+xml".toList then
        match readChapter r item i with
        | .ok chapter => readPackage.loop r m rest (i + 1) (chapters ++ [chapter])
        | .err _ => readPackage.loop r m rest (i + 1) chapters
        | .panic msg => .panic msg
      else readPackage.loop r m rest (i + 1) chapters

/-- Source `readPackage`. -/
def readPackage (xml : XMLDecoder) (r : EPUBReader) : Outcome EPUBReader :=
  match findFile r r.rootFile with
  | .error e => .err e
  | .ok packageFile =>
    match xml.decodePackage packageFile with
    | .error e => .err e
    | .ok pkg =>
      match r.book with
      | none => .panic "nil pointer dereference"
      | some book =>
        let metadata : BookMetadata :=
          { Title := pkg.Metadata.Title, Author := pkg.Metadata.Creator,
            Publisher := pkg.Metadata.Publisher, Language := pkg.Metadata.Language }
        match readPackage.loop r (manifestItems pkg.Items) pkg.ItemRefs 0 book.Chapters with
        | .ok chapters => .ok { r with book := some { Metadata := metadata, Chapters := chapters } }
        | .err e => .err e
        | .panic msg => .panic msg

/-- Source `EPUBReader.Open`, after `zip.OpenReader` gave the members `members`. -/
def EPUBReader.Open (xml : XMLDecoder) (r : EPUBReader) (members : List ZipFile) :
    Outcome EPUBReader :=
  let r := { r with file := members, book := some { Chapters := [] } }
  match readContainer xml r with
  | .ok r => readPackage xml r
  | .err e => .err e
  | .panic msg => .panic msg

/-- Source `EPUBReader.GetChapter`. -/
def EPUBReader.GetChapter (r : EPUBReader) (index : Int) : Outcome Chapter :=
  match r.book with
  | none => .err "book not opened"
  | some book =>
    if index < 0 ∨ index ≥ (book.Chapters.length : Int) then
      .err "chapter index out of range"
    else
      match book.Chapters[index.toNat]? with
      | some ch => .ok ch
      | none => .panic "index out of range"

/-- Source `EPUBReader.GetTotalChapters`. -/
def EPUBReader.GetTotalChapters (r : EPUBReader) : Int :=
  match r.book with
  | none => 0
  | some book => (book.Chapters.length : Int)

/-! ## `internal/viewer/cli`: pagination -/

/-- Go struct `CurrentPos`. -/
structure CurrentPos where
  Chapter : Int := 0
  Page : Int := 0
  deriving DecidableEq, Repr

/-- Go struct `CLIViewer` (the terminal handles `scanner` and `input` left out);
`reader` is the `core.BookReader` given to `NewCLIViewer`. -/
structure CLIViewer where
  reader : EPUBReader := {}
  currentPos : CurrentPos := {}
  pageSize : Int := 20
  shouldExit : Bool := false
  currentFile : GoString := []

/-- The constant `maxWidth` of `paginateContent`. -/
def maxWidth : Nat := 80

/-- Local variables of the wrapping loop of `paginateContent`. -/
structure WrapState where
  lines : List GoString
  currentLine : GoString
  lineLength : Nat
  deriving DecidableEq, Repr

/-- Body of the loop `for i := 1; i < len(words); i++` of `paginateContent`. -/
def wrapStep (st : WrapState) (word : GoString) : WrapState :=
  let wordLen := len word
  if st.lineLength + wordLen + 1 > maxWidth then
    { lines := st.lines ++ [st.currentLine], currentLine := word, lineLength := wordLen }
  else
    { lines := st.lines, currentLine := st.currentLine ++ ' ' :: word,
      lineLength := st.lineLength + (wordLen + 1) }

/-- Body of the loop over paragraphs of `paginateContent`. -/
def paragraphStep (lines : List GoString) (paragraph : GoString) : List GoString :=
  if strings.TrimSpace paragraph = [] then lines
  else
    match strings.Fields paragraph with
    | [] => lines
    | first :: rest =>
      let st := rest.foldl wrapStep
        { lines := lines, currentLine := first, lineLength := len first }
      let lines := if len st.currentLine > 0 then st.lines ++ [st.currentLine] else st.lines
      lines ++ [[]]

/-- The slice `lines` of `paginateContent` when the paragraph loop is over. -/
def wrappedLines (content : GoString) : List GoString :=
  (strings.Split content "\n\n".toList).foldl paragraphStep []

/-- Local variables of the page-grouping loop of `paginateContent`. -/
structure PageState where
  pages : List GoString
  currentPage : GoString
  lineCount : Int
  deriving DecidableEq, Repr

/-- Body of the loop `for _, line := range lines` of `paginateContent`. -/
def pageStep (pageSize : Int) (st : PageState) (line : GoString) : PageState :=
  let st : PageState :=
    if st.lineCount ≥ pageSize then
      { pages := st.pages ++ [strings.TrimSpace st.currentPage], currentPage := [],
        lineCount := 0 }
    else st
  { pages := st.pages, currentPage := st.currentPage ++ line ++ ['\n'],
    lineCount := st.lineCount + 1 }

/-- Grouping of lines into pages, the second half of `paginateContent`. -/
def groupPages (pageSize : Int) (lines : List GoString) : List GoString :=
  let st := lines.foldl (pageStep pageSize) { pages := [], currentPage := [], lineCount := 0 }
  if len st.currentPage > 0 then st.pages ++ [strings.TrimSpace st.currentPage] else st.pages

/-- Source `CLIViewer.paginateContent`. -/
def CLIViewer.paginateContent (v : CLIViewer) (content : GoString) : List GoString :=
  groupPages v.pageSize (wrappedLines content)

/-! ## `internal/viewer/cli`: progress store -/

/-- Go struct `ReadingProgress`. -/
structure ReadingProgress where
  FilePath : GoString
  Position : CurrentPos
  deriving DecidableEq, Repr

/-- Go struct `ProgressStore`; `Progresses = none` is the nil map. -/
structure ProgressStore where
  Progresses : Option (GoMap ReadingProgress)

/-- What the JSON text of a store file holds under the key `progresses`. -/
inductive JSONField where
  | absent
  | null
  | entries (m : GoMap ReadingProgress)

/-- Contents of a store file, by what `encoding/json` makes of them: text that
`json.Unmarshal` rejects, or a document that decodes into a `ProgressStore`. -/
inductive StoreFile where
  | undecodable (msg : String)
  | document (progresses : JSONField)

/-- Go `json.Unmarshal(data, &store)`: an absent key leaves the field as it was,
`null` sets the map to nil, an object adds its entries to the map. -/
def json.Unmarshal (data : StoreFile) (store : ProgressStore) : Except String ProgressStore :=
  match data with
  | .undecodable msg => .error msg
  | .document .absent => .ok store
  | .document .null => .ok { Progresses := none }
  | .document (.entries m) =>
    .ok { Progresses := some (fun k => (m k).orElse (fun _ => (store.Progresses.getD GoMap.empty) k)) }

/-- Go `json.MarshalIndent(store, ...)`: the text that decodes back to `store`. -/
def json.MarshalIndent (store : ProgressStore) : StoreFile :=
  match store.Progresses with
  | none => .document .null
  | some m => .document (.entries m)

/-- The part of the operating system the progress store touches: which calls
fail, and the contents of `$HOME/.ereader/progress.json` and of its `.tmp`
sibling (`none`: the file does not exist). -/
structure OS where
  userHomeDirErr : Option String := none
  mkdirAllErr : Option String := none
  readFileErr : Option String := none
  writeFileErr : Option String := none
  renameErr : Option String := none
  progressFile : Option StoreFile := none
  tempFile : Option StoreFile := none

/-- Source `CLIViewer.saveProgress`: the returned value and the files afterwards. -/
def CLIViewer.saveProgress (v : CLIViewer) (os : OS) : Outcome Unit × OS :=
  if v.currentFile = [] then (.err "no current file set", os)
  else
    match os.userHomeDirErr with
    | some e => (.err ("failed to get home directory: " ++ e), os)
    | none =>
      match os.mkdirAllErr with
      | some e => (.err ("failed to create progress directory: " ++ e), os)
      | none =>
        let store : ProgressStore := { Progresses := some GoMap.empty }
        let store : ProgressStore :=
          match os.readFileErr, os.progressFile with
          | none, some data =>
            match json.Unmarshal data store with
            | .ok store => store
            | .error _ => { Progresses := some GoMap.empty }
          | _, _ => store
        match store.Progresses with
        | none => (.panic "assignment to entry in nil map", os)
        | some m =>
          let store : ProgressStore :=
            { Progresses := some (m.set v.currentFile
                { FilePath := v.currentFile, Position := v.currentPos }) }
          let data := json.MarshalIndent store
          match os.writeFileErr with
          | some e => (.err ("failed to write temporary progress file: " ++ e), os)
          | none =>
            let os := { os with tempFile := some data }
            match os.renameErr with
            | some e => (.err ("failed to save progress file: " ++ e), { os with tempFile := none })
            | none => (.ok (), { os with progressFile := os.tempFile, tempFile := none })

/-- Source `CLIViewer.loadProgress`: the returned value and the viewer afterwards. -/
def CLIViewer.loadProgress (v : CLIViewer) (os : OS) : Outcome Unit × CLIViewer :=
  if v.currentFile = [] then (.err "no current file set", v)
  else
    match os.userHomeDirErr with
    | some e => (.err ("failed to get home directory: " ++ e), v)
    | none =>
      match os.readFileErr, os.progressFile with
      | some e, _ => (.err ("failed to read progress file: " ++ e), v)
      | none, none => (.ok (), v)
      | none, some data =>
        match json.Unmarshal data { Progresses := none } with
        | .error e => (.err ("failed to unmarshal progress data: " ++ e), v)
        | .ok store =>
          match (store.Progresses.getD GoMap.empty) v.currentFile with
          | some progress =>
            if progress.Position.Chapter ≥ 0 ∧
                progress.Position.Chapter < v.reader.GetTotalChapters then
              (.ok (), { v with currentPos := progress.Position })
            else (.ok (), v)
          | none => (.ok (), v)

/-! ## `golang.org/x/net/html`: the parsed tree -/

/-- Go `html.NodeType`. -/
inductive html.NodeType where
  | ErrorNode
  | TextNode
  | DocumentNode
  | ElementNode
  | CommentNode
  | DoctypeNode
  | RawNode
  deriving DecidableEq, Repr

mutual
/-- Go `html.Node`, with the fields the viewer reads: `Type`, `Data`, `FirstChild`
and `NextSibling`. -/
inductive html.Node where
  | mk (nodeType : html.NodeType) (Data : GoString) (FirstChild : html.NodePtr)
      (NextSibling : html.NodePtr)
/-- Go `*html.Node` where it may be nil. -/
inductive html.NodePtr where
  | nil
  | ptr (n : html.Node)
end

/-- The parser `html.Parse`, a parameter of the model: the document node it returns,
or its error. -/
abbrev HTMLParser := GoString → Except String html.Node

/-! ## `internal/viewer/cli`: formatting -/

mutual
/-- The closure `extract` of `formatContent`; `buf` is the buffer written to. -/
def extract : html.Node → GoString → GoString
  | .mk nodeType data firstChild _, buf =>
    let buf := if nodeType = .TextNode then (buf ++ data) ++ [' '] else buf
    let buf := extractChildren firstChild buf
    if nodeType = .ElementNode ∧ (data = "p".toList ∨ data = "div".toList) then
      buf ++ ['\n', '\n']
    else buf
/-- The loop `for c := n.FirstChild; c != nil; c = c.NextSibling` of `extract`,
entered at `c`. -/
def extractChildren : html.NodePtr → GoString → GoString
  | .nil, buf => buf
  | .ptr (.mk nodeType data firstChild nextSibling), buf =>
    extractChildren nextSibling (extract (.mk nodeType data firstChild nextSibling) buf)
end

/-- Source `CLIViewer.formatContent`. -/
def CLIViewer.formatContent (_v : CLIViewer) (parse : HTMLParser) (content : GoString) :
    GoString :=
  match parse content with
  | .error _ => content
  | .ok doc => strings.TrimSpace (extract doc [])

/-! ## `internal/viewer/cli`: navigation and keys -/

/-- Source `CLIViewer.nextChapter`: the returned value and the viewer afterwards. -/
def CLIViewer.nextChapter (v : CLIViewer) : Outcome Unit × CLIViewer :=
  if v.currentPos.Chapter < v.reader.GetTotalChapters - 1 then
    (.ok (), { v with currentPos := { Chapter := v.currentPos.Chapter + 1, Page := 0 } })
  else (.ok (), v)

/-- Source `CLIViewer.previousChapter`. -/
def CLIViewer.previousChapter (v : CLIViewer) : Outcome Unit × CLIViewer :=
  if v.currentPos.Chapter > 0 then
    (.ok (), { v with currentPos := { Chapter := v.currentPos.Chapter - 1, Page := 0 } })
  else (.ok (), v)

/-- Source `CLIViewer.goToChapter`. -/
def CLIViewer.goToChapter (v : CLIViewer) (num : Int) : Outcome Unit × CLIViewer :=
  if num ≥ 0 ∧ num < v.reader.GetTotalChapters then
    (.ok (), { v with currentPos := { Chapter := num, Page := 0 } })
  else (.ok (), v)

/-- Source `CLIViewer.displayCurrentPage`; what is printed is left out. -/
def CLIViewer.displayCurrentPage (v : CLIViewer) (parse : HTMLParser) :
    Outcome Unit × CLIViewer :=
  match v.reader.GetChapter v.currentPos.Chapter with
  | .err e => (.err e, v)
  | .panic msg => (.panic msg, v)
  | .ok chapter =>
    let content := v.formatContent parse chapter.Content
    let pages := v.paginateContent content
    if v.currentPos.Page ≥ (pages.length : Int) then
      (.ok (), { v with currentPos :=
        { Chapter := v.currentPos.Chapter, Page := (pages.length : Int) - 1 } })
    else (.ok (), v)

/-- Source `CLIViewer.nextPage`. -/
def CLIViewer.nextPage (v : CLIViewer) (parse : HTMLParser) : Outcome Unit × CLIViewer :=
  match v.reader.GetChapter v.currentPos.Chapter with
  | .err e => (.err e, v)
  | .panic msg => (.panic msg, v)
  | .ok chapter =>
    let content := v.formatContent parse chapter.Content
    let pages := v.paginateContent content
    if v.currentPos.Page < (pages.length : Int) - 1 then
      (.ok (), { v with currentPos :=
        { Chapter := v.currentPos.Chapter, Page := v.currentPos.Page + 1 } })
    else v.nextChapter

/-- Source `CLIViewer.previousPage`; the chapter pointer is nil when `GetChapter`
fails, and reading its `Content` then panics. -/
def CLIViewer.previousPage (v : CLIViewer) (parse : HTMLParser) : Outcome Unit × CLIViewer :=
  if v.currentPos.Page > 0 then
    (.ok (), { v with currentPos :=
      { Chapter := v.currentPos.Chapter, Page := v.currentPos.Page - 1 } })
  else
    match v.previousChapter with
    | (.err e, v) => (.err e, v)
    | (.panic msg, v) => (.panic msg, v)
    | (.ok (), v) =>
      match v.reader.GetChapter v.currentPos.Chapter with
      | .ok chapter =>
        let content := v.formatContent parse chapter.Content
        let pages := v.paginateContent content
        (.ok (), { v with currentPos :=
          { Chapter := v.currentPos.Chapter, Page := (pages.length : Int) - 1 } })
      | _ => (.panic "nil pointer dereference", v)

/-- Go `keyboard.Key`, the named keys the viewer tests; `none` is the zero value
that comes with a character key. -/
inductive keyboard.Key where
  | none
  | KeyArrowRight
  | KeyArrowLeft
  | KeyArrowUp
  | KeyArrowDown
  | KeyEsc
  | other
  deriving DecidableEq, Repr

/-- The key source: the events `keyboard.GetKey` will return, one a call, and how
many were taken. -/
structure Keyboard where
  events : Nat → Except String (Char × keyboard.Key)
  taken : Nat := 0

/-- Go `keyboard.GetKey`. -/
def keyboard.GetKey (kb : Keyboard) : Except String (Char × keyboard.Key) × Keyboard :=
  (kb.events kb.taken, { kb with taken := kb.taken + 1 })

/-- Go `strconv.Atoi(string(char))`: a single decimal digit, else an error. -/
def strconv.Atoi (char : Char) : Option Int :=
  if '0' ≤ char ∧ char ≤ '9' then some ((char.toNat : Int) - 48) else none

/-- Source `CLIViewer.handleKeyPress`: the returned value, the viewer, the files and
the key source afterwards. -/
def CLIViewer.handleKeyPress (v : CLIViewer) (parse : HTMLParser) (os : OS) (kb : Keyboard)
    (char : Char) (key : keyboard.Key) : Outcome Unit × CLIViewer × OS × Keyboard :=
  match key with
  | .KeyArrowRight => ((v.nextPage parse).1, (v.nextPage parse).2, os, kb)
  | .KeyArrowLeft => ((v.previousPage parse).1, (v.previousPage parse).2, os, kb)
  | .KeyArrowUp => (v.previousChapter.1, v.previousChapter.2, os, kb)
  | .KeyArrowDown => (v.nextChapter.1, v.nextChapter.2, os, kb)
  | .KeyEsc =>
    let v := { v with shouldExit := true }
    ((v.saveProgress os).1, v, (v.saveProgress os).2, kb)
  | _ =>
    if char = 'q' then
      let v := { v with shouldExit := true }
      ((v.saveProgress os).1, v, (v.saveProgress os).2, kb)
    else if char = 'h' then (.ok (), v, os, (keyboard.GetKey kb).2)
    else if char = 't' then (.ok (), v, os, (keyboard.GetKey kb).2)
    else if char = 's' then
      match v.saveProgress os with
      | (.ok (), os) => (.ok (), v, os, (keyboard.GetKey kb).2)
      | (.err _, os) => (.ok (), v, os, kb)
      | (.panic msg, os) => (.panic msg, v, os, kb)
    else
      match strconv.Atoi char with
      | some num => ((v.goToChapter (num - 1)).1, (v.goToChapter (num - 1)).2, os, kb)
      | none => (.ok (), v, os, kb)

/-- Source `CLIViewer.eventLoop`, for at most `fuel` rounds; `none` when the loop
is still running after them. -/
def CLIViewer.eventLoop (parse : HTMLParser) :
    Nat → CLIViewer → OS → Keyboard → Option (Outcome Unit) × CLIViewer × OS × Keyboard
  | 0, v, os, kb => (none, v, os, kb)
  | fuel + 1, v, os, kb =>
    if v.shouldExit then (some (.ok ()), v, os, kb)
    else
      match v.displayCurrentPage parse with
      | (.err e, v) => (some (.err e), v, os, kb)
      | (.panic msg, v) => (some (.panic msg), v, os, kb)
      | (.ok (), v) =>
        match keyboard.GetKey kb with
        | (.error e, kb) => (some (.err ("keyboard error: " ++ e)), v, os, kb)
        | (.ok (char, key), kb) =>
          match v.handleKeyPress parse os kb char key with
          | (.ok (), v, os, kb) => CLIViewer.eventLoop parse fuel v os kb
          | (.err e, v, os, kb) => (some (.err e), v, os, kb)
          | (.panic msg, v, os, kb) => (some (.panic msg), v, os, kb)

/-! ## `internal/ereader`: the sibling container resolver -/

/-- Source `findOPFFile` of `internal/ereader/reader.go`; the member is opened
by its exact name. -/
def ebookreader.findOPFFile (xml : XMLDecoder) (members : List ZipFile) : Outcome GoString :=
  match members.find? (fun f => f.Name = "META-INF/container.xml".toList) with
  | none => .err "open META-INF/container.xml: file does not exist"
  | some f =>
    match f.contents with
    | .error e => .err e
    | .ok containerFile =>
      match xml.decodeContainer containerFile with
      | .error e => .err e
      | .ok container =>
        match container.RootFiles.find?
            (fun rootfile => rootfile.MediaType = "application/oebps-package+xml".toList) with
        | some rootfile => .ok rootfile.FullPath
        | none => .err "OPF file not found"

/-! ## Specification-side definitions -/

/-- Go `strings.Join(ws, " ")`. -/
def joinSpace (ws : List GoString) : GoString := List.intercalate [' '] ws

/-- Greedy packing as the specification words it, for the width `W = 80`: `cur` is
the line under construction, as its words; a word that would make the line, with
one separating space, exceed 80 bytes closes the line and starts the next one. -/
def greedyGroups : List GoString → List GoString → List (List GoString)
  | [], cur => [cur]
  | w :: ws, cur =>
    if len (joinSpace cur) + len w + 1 > 80 then cur :: greedyGroups ws [w]
    else greedyGroups ws (cur ++ [w])

/-- The lines of one paragraph, as groups of its words. -/
def lineGroups (words : List GoString) : List (List GoString) :=
  match words with
  | [] => []
  | first :: rest => greedyGroups rest [first]

/-- The lines one paragraph contributes: its word groups joined, then the separator. -/
def paragraphLines (paragraph : GoString) : List GoString :=
  match strings.Fields paragraph with
  | [] => []
  | first :: rest => (greedyGroups rest [first]).map joinSpace ++ [[]]

/-- The manifest item an id resolves to: the last item of the manifest carrying it. -/
def manifestLookup (items : List Item) (id : GoString) : Option Item :=
  items.reverse.find? (fun item => item.ID = id)

/-- The bytes of the chapter a spine entry yields, in the specification's words:
its idref is in the manifest, the media type is a markup type, and the member at
the resolved path is found and read. -/
def spineContent (r : EPUBReader) (items : List Item) (itemRef : ItemRef) : Option GoString :=
  match manifestLookup items itemRef.IDRef with
  | none => none
  | some item =>
    if item.MediaType = "application/xhtml+xml".toList ∨
        item.MediaType = "application/x-dtbook+xml".toList then
      match findFile r (filepath.Join r.contentPath item.Href) with
      | .ok content => some content
      | .error _ => none
    else none

/-- Spine positions, from `i` on, of the entries that yield a chapter. -/
def spinePositions (r : EPUBReader) (items : List Item) : List ItemRef → Nat → List Int
  | [], _ => []
  | itemRef :: rest, i =>
    match spineContent r items itemRef with
    | some _ => (i : Int) :: spinePositions r items rest (i + 1)
    | none => spinePositions r items rest (i + 1)

/-- The record a decoded store file holds for a path, if any. -/
def storedRecord (field : JSONField) (path : GoString) : Option ReadingProgress :=
  match field with
  | .entries m => m path
  | _ => none

/-- A book of two chapters. -/
def sampleBook : Book :=
  { Chapters :=
      [ { Index := 0, Title := "One".toList, Content := "<p>one</p>".toList },
        { Index := 1, Title := "Two".toList, Content := "<p>two</p>".toList } ] }

/-- A viewer on `/books/a.epub`, whose opened book has two chapters. -/
def sampleViewer : CLIViewer :=
  { reader := { book := some sampleBook }, currentFile := "/books/a.epub".toList }

/-- A viewer showing two lines a page. -/
def twoLineViewer : CLIViewer := { pageSize := 2 }

/-- Three paragraphs, one of them blank. -/
def sampleText : GoString := "one two three\n\nfour five\n\n \n\nsix".toList

/-- One paragraph of six words of 40, 40, 39, 1, 94 and 1 bytes: the first two do
not fit one line (81 bytes), the second and third fill one exactly (80 bytes). -/
def widthText : GoString :=
  List.replicate 40 'a' ++ ' ' :: (List.replicate 40 'b' ++ ' ' :: (List.replicate 39 'c' ++
    ' ' :: 'd' :: ' ' :: (List.replicate 94 'e' ++ [' ', 'f'])))

/-- A store file holding the position `pos` for `/books/a.epub`. -/
def storeAt (pos : CurrentPos) : JSONField :=
  .entries (GoMap.empty.set "/books/a.epub".toList
    { FilePath := "/books/a.epub".toList, Position := pos })

/-- A store file holding the position chapter 1, page 4 for `/books/a.epub`. -/
def sampleStore : JSONField := storeAt { Chapter := 1, Page := 4 }

/-! ## Observations and sample archives -/

/-- The chapter sequence of the book a call left behind, when it returned normally. -/
def chaptersOf (o : Outcome EPUBReader) : Option (List Chapter) :=
  match o with
  | .ok r => r.book.map (·.Chapters)
  | _ => none

/-- The package-document path a call left behind, when it returned normally. -/
def rootFileOf (o : Outcome EPUBReader) : Option GoString :=
  match o with
  | .ok r => some r.rootFile
  | _ => none

/-- A container descriptor naming `OEBPS/content.opf` as its only root file. -/
def containerXML : GoString :=
  "<container><rootfiles><rootfile full-path=\"OEBPS/content.opf\" media-type=\"application/oebps-package+xml\"/></rootfiles></container>".toList

/-- A container descriptor listing a PDF rendition before the package document. -/
def twoRootsXML : GoString :=
  "<container><rootfiles><rootfile full-path=\"book.pdf\" media-type=\"application/pdf\"/><rootfile full-path=\"OEBPS/content.opf\" media-type=\"application/oebps-package+xml\"/></rootfiles></container>".toList

/-- A container descriptor listing only a PDF rendition. -/
def pdfOnlyXML : GoString :=
  "<container><rootfiles><rootfile full-path=\"book.pdf\" media-type=\"application/pdf\"/></rootfiles></container>".toList

/-- A package whose spine names `c1`, absent from the manifest, before `c2`. -/
def gapPackageXML : GoString :=
  "<package><manifest><item id=\"c2\" href=\"ch2.xhtml\" media-type=\"application/xhtml+xml\"/></manifest><spine><itemref idref=\"c1\"/><itemref idref=\"c2\"/></spine></package>".toList

/-- A package with the single chapter `c1`. -/
def onePackageXML : GoString :=
  "<package><manifest><item id=\"c1\" href=\"ch1.xhtml\" media-type=\"application/xhtml+xml\"/></manifest><spine><itemref idref=\"c1\"/></spine></package>".toList

/-- What `encoding/xml` decodes the sample descriptors to. -/
def sampleDecoder : XMLDecoder where
  decodeContainer := fun data =>
    let opf : rootFile :=
      { FullPath := "OEBPS/content.opf".toList,
        MediaType := "application/oebps-package+xml".toList }
    let pdf : rootFile :=
      { FullPath := "book.pdf".toList, MediaType := "application/pdf".toList }
    if data = containerXML then .ok { RootFiles := [opf] }
    else if data = twoRootsXML then .ok { RootFiles := [pdf, opf] }
    else if data = pdfOnlyXML then .ok { RootFiles := [pdf] }
    else .error "XML syntax error"
  decodePackage := fun data =>
    if data = gapPackageXML then
      .ok { Items := [{ ID := "c2".toList, Href := "ch2.xhtml".toList,
                        MediaType := "application/xhtml+xml".toList }],
            ItemRefs := [{ IDRef := "c1".toList }, { IDRef := "c2".toList }] }
    else if data = onePackageXML then
      .ok { Items := [{ ID := "c1".toList, Href := "ch1.xhtml".toList,
                        MediaType := "application/xhtml+xml".toList }],
            ItemRefs := [{ IDRef := "c1".toList }] }
    else .error "XML syntax error"

/-- An archive whose first spine entry is skipped. -/
def gapArchive : List ZipFile :=
  [ { Name := "META-INF/container.xml".toList, contents := .ok containerXML },
    { Name := "OEBPS/content.opf".toList, contents := .ok gapPackageXML },
    { Name := "OEBPS/ch2.xhtml".toList, contents := .ok "<title>Two</title>".toList } ]

/-- An archive whose only chapter closes a `title` element with attributes in its
head and opens a plain `title` element later, inside a drawing. -/
def svgTitleArchive : List ZipFile :=
  [ { Name := "META-INF/container.xml".toList, contents := .ok containerXML },
    { Name := "OEBPS/content.opf".toList, contents := .ok onePackageXML },
    { Name := "OEBPS/ch1.xhtml".toList,
      contents := .ok "<title id=\"t\">One</title><svg><title>Map</title></svg>".toList } ]

/-- An archive whose container lists a PDF rendition first. -/
def twoRootsArchive : List ZipFile :=
  [ { Name := "META-INF/container.xml".toList, contents := .ok twoRootsXML },
    { Name := "OEBPS/content.opf".toList, contents := .ok onePackageXML },
    { Name := "OEBPS/ch1.xhtml".toList, contents := .ok "<title>One</title>".toList } ]

/-- An archive whose container lists no package document at all. -/
def pdfOnlyArchive : List ZipFile :=
  [ { Name := "META-INF/container.xml".toList, contents := .ok pdfOnlyXML },
    { Name := "book.pdf".toList, contents := .ok "%PDF".toList } ]

/-- The reader as `readContainer` leaves it on `gapArchive`. -/
def gapReader : EPUBReader :=
  { file := gapArchive, book := some {}, rootFile := "OEBPS/content.opf".toList,
    contentPath := "OEBPS".toList }

/-- The package `gapPackageXML` decodes to. -/
def gapPackage : Package :=
  { Items := [{ ID := "c2".toList, Href := "ch2.xhtml".toList,
                MediaType := "application/xhtml+xml".toList }],
    ItemRefs := [{ IDRef := "c1".toList }, { IDRef := "c2".toList }] }

/-! ## Specification-side definitions and samples: formatting, keys, navigation -/

mutual
/-- The text of a node as a document-order walk: a text node gives its text and then `after`. -/
def flatText (after : GoString) : html.Node → GoString
  | .mk nodeType data firstChild _ =>
    ((if nodeType = .TextNode then data ++ after else []) ++ flatChildren after firstChild) ++
      (if nodeType = .ElementNode ∧ (data = "p".toList ∨ data = "div".toList) then
        ['\n', '\n'] else [])
/-- The texts of a node and of the siblings after it, in order. -/
def flatChildren (after : GoString) : html.NodePtr → GoString
  | .nil => []
  | .ptr (.mk nodeType data firstChild nextSibling) =>
    flatText after (.mk nodeType data firstChild nextSibling) ++ flatChildren after nextSibling
end

/-- A text node followed by the siblings `next`. -/
def html.text (data : String) (next : html.NodePtr) : html.NodePtr :=
  .ptr (.mk .TextNode data.toList .nil next)

/-- An element with the children `children`, followed by the siblings `next`. -/
def html.element (tag : String) (children next : html.NodePtr) : html.NodePtr :=
  .ptr (.mk .ElementNode tag.toList children next)

/-- The document `html.Parse` builds around the body children `body`. -/
def html.document (body : html.NodePtr) : html.Node :=
  .mk .DocumentNode []
    (html.element "html" (html.element "head" .nil (html.element "body" body .nil)) .nil) .nil

/-- What `html.Parse` returns on the sample chapter contents. -/
def sampleParse : HTMLParser := fun content =>
  if content = "<p>one</p>".toList then
    .ok (html.document (html.element "p" (html.text "one" .nil) .nil))
  else if content = "<p>two</p>".toList then
    .ok (html.document (html.element "p" (html.text "two" .nil) .nil))
  else if content = "<p>a<b>b</b></p>".toList then
    .ok (html.document
      (html.element "p" (html.text "a" (html.element "b" (html.text "b" .nil) .nil)) .nil))
  else if content = "<img src=\"cover.jpg\"/>".toList then
    .ok (html.document (html.element "img" .nil .nil))
  else .error "not a sample document"


/-- The pages of the chapter the viewer is at; none when `GetChapter` fails. -/
def currentPages (v : CLIViewer) (parse : HTMLParser) : List GoString :=
  match v.reader.GetChapter v.currentPos.Chapter with
  | .ok chapter => v.paginateContent (v.formatContent parse chapter.Content)
  | _ => []

/-- The records a store file holds when it decodes to a map; none otherwise. -/
def priorRecords (file : Option StoreFile) : GoMap ReadingProgress :=
  match file with
  | some (.document (.entries m)) => m
  | _ => GoMap.empty

/-- A system on which the temporary progress file cannot be written. -/
def readOnlyOS : OS := { writeFileErr := some "permission denied" }

/-- A key source that keeps sending `q`. -/
def quitKeys : Keyboard := { events := fun _ => .ok ('q', .none) }

/-- A viewer on a book whose first chapter is a cover image without text. -/
def coverViewer : CLIViewer :=
  { reader := { book := some { Chapters :=
      [ { Index := 0, Title := "Untitled".toList, Content := "<img src=\"cover.jpg\"/>".toList },
        { Index := 1, Title := "One".toList, Content := "<p>one</p>".toList } ] } },
    currentFile := "/books/a.epub".toList }

/-- An operation returned normally, on the same book, at a chapter of the book. -/
def keepsChapter (v : CLIViewer) (r : Outcome Unit × CLIViewer) : Prop :=
  r.1 = .ok () ∧ r.2.reader = v.reader ∧
    0 ≤ r.2.currentPos.Chapter ∧ r.2.currentPos.Chapter < v.reader.GetTotalChapters ∧
    ∃ ch, r.2.reader.GetChapter r.2.currentPos.Chapter = .ok ch

/-- A word: not empty and free of white space. -/
def isWord (w : GoString) : Prop := w ≠ [] ∧ ∀ c ∈ w, unicode.IsSpace c = false

/-! ## Theorems: `internal/format/epub` -/

/-- C1 (the code departs from the claim): in `gapArchive` the spine is `c1, c2`
and `c1` is absent from the manifest; `Open` returns a book whose only chapter,
at position 0 of `Chapters`, carries `Index = 1`, its spine position. -/
theorem readPackage_index_is_spine_position :
    chaptersOf (EPUBReader.Open sampleDecoder {} gapArchive) =
      some [{ Index := 1, Title := "Two".toList, Content := "<title>Two</title>".toList }] := by
  decide

/-- C2 (the code departs from the claim): the only spine entry of
`svgTitleArchive` is in the manifest with a supported media type and its member
is found and read, yet `Open` produces no chapter sequence: `extractTitle`
panics inside `readChapter` and the panic leaves `readPackage`. -/
theorem readPackage_panics_on_readable_chapter :
    chaptersOf (EPUBReader.Open sampleDecoder {} svgTitleArchive) = none ∧
    (∃ msg, readChapter
        { file := svgTitleArchive, book := some {}, rootFile := "OEBPS/content.opf".toList,
          contentPath := "OEBPS".toList }
        { ID := "c1".toList, Href := "ch1.xhtml".toList,
          MediaType := "application/xhtml+xml".toList } 0 = .panic msg) := by
  refine ⟨by decide, "slice bounds out of range", by decide⟩

set_option maxRecDepth 8192 in
/-- C3 (the code departs from the claim): with a PDF rendition listed before the
package document, `readContainer` takes the PDF as the package document, where
the sibling `findOPFFile` returns `OEBPS/content.opf`; with only the PDF listed,
`readContainer` still returns normally, where `findOPFFile` returns an error. -/
theorem readContainer_ignores_media_type :
    rootFileOf (readContainer sampleDecoder { file := twoRootsArchive }) =
        some "book.pdf".toList ∧
    ebookreader.findOPFFile sampleDecoder twoRootsArchive = .ok "OEBPS/content.opf".toList ∧
    rootFileOf (readContainer sampleDecoder { file := pdfOnlyArchive }) =
        some "book.pdf".toList ∧
    ebookreader.findOPFFile sampleDecoder pdfOnlyArchive = .err "OPF file not found" := by
  refine ⟨by decide, by decide, by decide, by decide⟩

/-- C4 (the code departs from the claim): on content whose only closing tag
precedes the opening tag, `extractTitle` does not return `Untitled`; the slice
expression `content[15:0]` panics.  It panics as well when a well-formed pair
`<title>Map</title>` follows an earlier closing tag. -/
theorem extractTitle_panics_on_reversed_tags :
    extractTitle "</title><title>".toList = .panic "slice bounds out of range" ∧
    strings.Index "</title><title>".toList "<title>".toList + 7 = 15 ∧
    strings.Index "</title><title>".toList "</title>".toList = 0 ∧
    extractTitle "<title id=\"t\">One</title><svg><title>Map</title></svg>".toList =
      .panic "slice bounds out of range" := by
  decide

/-- C10: `GetChapter` never panics; with no book opened it returns an error; with
a book opened it returns an error exactly when `index < 0` or
`index >= len(Chapters)`, and otherwise the chapter at position `index`. -/
theorem GetChapter_error_iff_out_of_range (r : EPUBReader) (index : Int) :
    (∀ msg, r.GetChapter index ≠ .panic msg) ∧
    (r.book = none → ∃ msg, r.GetChapter index = .err msg) ∧
    (∀ book, r.book = some book →
      ((∃ msg, r.GetChapter index = .err msg) ↔
        (index < 0 ∨ index ≥ (book.Chapters.length : Int))) ∧
      (∀ h : index.toNat < book.Chapters.length, 0 ≤ index →
        r.GetChapter index = .ok (book.Chapters.get ⟨index.toNat, h⟩))) := by
  have key : ∀ book, r.book = some book → ¬ (index < 0 ∨ index ≥ (book.Chapters.length : Int)) →
      ∃ h : index.toNat < book.Chapters.length,
        r.GetChapter index = .ok (book.Chapters.get ⟨index.toNat, h⟩) := by
    intro book hb hr
    have h : index.toNat < book.Chapters.length := by omega
    refine ⟨h, ?_⟩
    simp only [EPUBReader.GetChapter, hb, if_neg hr, List.getElem?_eq_getElem h]
    rfl
  refine ⟨?_, ?_, ?_⟩
  · intro msg
    cases hb : r.book with
    | none => simp [EPUBReader.GetChapter, hb]
    | some book =>
      by_cases hr : index < 0 ∨ index ≥ (book.Chapters.length : Int)
      · simp [EPUBReader.GetChapter, hb, hr]
      · obtain ⟨h, e⟩ := key book hb hr
        simp [e]
  · intro hb
    exact ⟨"book not opened", by simp [EPUBReader.GetChapter, hb]⟩
  · intro book hb
    refine ⟨⟨?_, ?_⟩, ?_⟩
    · rintro ⟨msg, e⟩
      by_contra hr
      obtain ⟨h, e'⟩ := key book hb hr
      simp [e'] at e
    · intro hr
      exact ⟨"chapter index out of range", by simp [EPUBReader.GetChapter, hb, hr]⟩
    · intro h h0
      have hr : ¬ (index < 0 ∨ index ≥ (book.Chapters.length : Int)) := by omega
      obtain ⟨_, e⟩ := key book hb hr
      exact e

/-! ## Theorems: what `readPackage` and `extractTitle` do in general -/

/-- Filling a map item by item: a key maps to the last item carrying it, else to what the map held. -/
theorem foldl_set_lookup (items : List Item) (id : GoString) :
    ∀ m : GoMap Item,
      (items.foldl (fun m item => m.set item.ID item) m) id =
        (manifestLookup items id).orElse (fun _ => m id) := by
  induction items with
  | nil => intro m; simp [manifestLookup]
  | cons a l ih =>
    intro m
    rw [List.foldl_cons, ih]
    unfold manifestLookup
    rw [List.reverse_cons, List.find?_append]
    cases h : List.find? (fun item => decide (item.ID = id)) l.reverse with
    | some it => simp
    | none =>
      by_cases ha : a.ID = id
      · simp [GoMap.set, ha]
      · have : ¬ id = a.ID := fun e => ha e.symm
        simp [GoMap.set, ha, this]

/-- The lookup table of `readPackage` maps an id to the last manifest item carrying it. -/
theorem manifestItems_eq (items : List Item) (id : GoString) :
    manifestItems items id = manifestLookup items id := by
  unfold manifestItems
  rw [foldl_set_lookup]
  cases manifestLookup items id <;> simp [GoMap.empty]

/-- The spine loop, from position `i` and chapters `chapters`, when no title extraction panics. -/
theorem readPackage_loop_spec (r : EPUBReader) (items : List Item) (spine : List ItemRef)
    (hsafe : ∀ itemRef ∈ spine, ∀ content, spineContent r items itemRef = some content →
      ∃ title, extractTitle content = .ok title) :
    ∀ (i : Nat) (chapters : List Chapter), ∃ chs : List Chapter,
      readPackage.loop r (manifestItems items) spine i chapters = .ok (chapters ++ chs) ∧
      chs.map (·.Content) = spine.filterMap (spineContent r items) ∧
      chs.map (·.Index) = spinePositions r items spine i ∧
      ∀ ch ∈ chs, extractTitle ch.Content = .ok ch.Title := by
  induction spine with
  | nil => intro i chapters; exact ⟨[], by simp [readPackage.loop, spinePositions]⟩
  | cons itemRef rest ih =>
    intro i chapters
    have ih' := ih (fun x hx => hsafe x (List.mem_cons_of_mem _ hx))
    have hskip : spineContent r items itemRef = none →
        readPackage.loop r (manifestItems items) (itemRef :: rest) i chapters =
          readPackage.loop r (manifestItems items) rest (i + 1) chapters →
        ∃ chs : List Chapter,
          readPackage.loop r (manifestItems items) (itemRef :: rest) i chapters =
            .ok (chapters ++ chs) ∧
          chs.map (·.Content) = (itemRef :: rest).filterMap (spineContent r items) ∧
          chs.map (·.Index) = spinePositions r items (itemRef :: rest) i ∧
          ∀ ch ∈ chs, extractTitle ch.Content = .ok ch.Title := by
      intro hnone hloop
      obtain ⟨chs, h1, h2, h3, h4⟩ := ih' (i + 1) chapters
      refine ⟨chs, by rw [hloop, h1], ?_, ?_, h4⟩
      · rw [List.filterMap_cons, hnone]; exact h2
      · simp only [spinePositions, hnone]; exact h3
    cases hm : manifestLookup items itemRef.IDRef with
    | none =>
      apply hskip
      · simp [spineContent, hm]
      · simp [readPackage.loop, manifestItems_eq, hm]
    | some item =>
      by_cases hmt : item.MediaType = "application/xhtml+xml".toList ∨
          item.MediaType = "application/x-dtbook+xml".toList
      · cases hf : findFile r (filepath.Join r.contentPath item.Href) with
        | error e =>
          apply hskip
          · simp only [spineContent, hm, if_pos hmt, hf]
          · simp only [readPackage.loop, manifestItems_eq, hm, if_pos hmt, readChapter, hf]
        | ok content =>
          have hsc : spineContent r items itemRef = some content := by
            simp only [spineContent, hm, if_pos hmt, hf]
          obtain ⟨title, ht⟩ := hsafe itemRef (List.mem_cons_self _ _) content hsc
          obtain ⟨chs, h1, h2, h3, h4⟩ := ih' (i + 1)
            (chapters ++ [{ Index := (i : Int), Title := title, Content := content }])
          refine ⟨{ Index := (i : Int), Title := title, Content := content } :: chs, ?_, ?_, ?_, ?_⟩
          · simp only [readPackage.loop, manifestItems_eq, hm, if_pos hmt, readChapter, hf, ht, h1,
              List.append_assoc, List.singleton_append]
          · rw [List.filterMap_cons, hsc]; simp [h2]
          · simp only [spinePositions, hsc, List.map_cons, h3]
          · intro ch hch
            rcases List.mem_cons.mp hch with h | h
            · subst h; exact ht
            · exact h4 ch h
      · apply hskip
        · simp only [spineContent, hm, if_neg hmt]
        · simp only [readPackage.loop, manifestItems_eq, hm, if_neg hmt]


theorem spinePositions_of_all_some (r : EPUBReader) (items : List Item) (spine : List ItemRef)
    (hall : ∀ itemRef ∈ spine, (spineContent r items itemRef).isSome = true) :
    ∀ i : Nat, spinePositions r items spine i =
      (List.range' i spine.length).map Int.ofNat := by
  induction spine with
  | nil => intro i; simp [spinePositions]
  | cons itemRef rest ih =>
    intro i
    obtain ⟨c, hc⟩ := Option.isSome_iff_exists.mp (hall itemRef (List.mem_cons_self _ _))
    simp only [spinePositions, hc, List.length_cons, List.range'_succ, List.map_cons]
    rw [ih (fun x hx => hall x (List.mem_cons_of_mem _ hx))]
    rfl

theorem filterMap_length_of_all_some {α β : Type} (f : α → Option β) (l : List α)
    (hall : ∀ a ∈ l, (f a).isSome = true) : (l.filterMap f).length = l.length := by
  induction l with
  | nil => simp
  | cons a l ih =>
    obtain ⟨b, hb⟩ := Option.isSome_iff_exists.mp (hall a (List.mem_cons_self _ _))
    rw [List.filterMap_cons, hb]
    simp [ih (fun x hx => hall x (List.mem_cons_of_mem _ hx))]

/-- In a package where title extraction does not crash on any chapter the spine
yields, `readPackage` returns normally and appends, in spine order, exactly one
chapter per spine entry that resolves to a supported, readable member: its content
is the member's bytes, its title what `extractTitle` returns, and its `Index` the
position of the entry in the spine.  When every one of the `N` spine entries
resolves, there are `N` new chapters with indices `0..N-1`. -/
theorem readPackage_chapters (xml : XMLDecoder) (r : EPUBReader) (data : GoString)
    (pkg : Package) (book : Book)
    (hfile : findFile r r.rootFile = .ok data) (hdec : xml.decodePackage data = .ok pkg)
    (hbook : r.book = some book)
    (hsafe : ∀ itemRef ∈ pkg.ItemRefs, ∀ content,
      spineContent r pkg.Items itemRef = some content →
        ∃ title, extractTitle content = .ok title) :
    ∃ chs : List Chapter,
      chaptersOf (readPackage xml r) = some (book.Chapters ++ chs) ∧
      chs.map (·.Content) = pkg.ItemRefs.filterMap (spineContent r pkg.Items) ∧
      chs.map (·.Index) = spinePositions r pkg.Items pkg.ItemRefs 0 ∧
      (∀ ch ∈ chs, extractTitle ch.Content = .ok ch.Title) ∧
      ((∀ itemRef ∈ pkg.ItemRefs, (spineContent r pkg.Items itemRef).isSome = true) →
        chs.length = pkg.ItemRefs.length ∧
        chs.map (·.Index) = (List.range pkg.ItemRefs.length).map Int.ofNat) := by
  obtain ⟨chs, h1, h2, h3, h4⟩ :=
    readPackage_loop_spec r pkg.Items pkg.ItemRefs hsafe 0 book.Chapters
  refine ⟨chs, ?_, h2, h3, h4, ?_⟩
  · simp only [readPackage, hfile, hdec, hbook, h1, chaptersOf, Option.map_some']
  · intro hall
    constructor
    · have := congrArg List.length h2
      rw [List.length_map, filterMap_length_of_all_some _ _ hall] at this
      exact this
    · rw [h3, spinePositions_of_all_some r pkg.Items pkg.ItemRefs hall 0, List.range_eq_range']

/-- An offset found by `strings.Index` leaves room for the whole substring. -/
theorem indexFrom_bounds (substr : GoString) (s : GoString) :
    ∀ i : Nat, strings.indexFrom substr s i = -1 ∨
      ((i : Int) ≤ strings.indexFrom substr s i ∧
        strings.indexFrom substr s i + substr.length ≤ i + s.length) := by
  induction s with
  | nil =>
    intro i
    unfold strings.indexFrom
    by_cases h : substr = []
    · right; simp [h]
    · left; simp [h]
  | cons c cs ih =>
    intro i
    unfold strings.indexFrom
    by_cases h : substr.isPrefixOf (c :: cs) = true
    · right
      have hle : substr.length ≤ (c :: cs).length :=
        (List.isPrefixOf_iff_prefix.mp h).length_le
      simp only [h, if_true]
      constructor
      · omega
      · have : (substr.length : Int) ≤ ((c :: cs).length : Int) := by exact_mod_cast hle
        omega
    · simp only [h, Bool.false_eq_true, if_false]
      rcases ih (i + 1) with h' | ⟨h1, h2⟩
      · left; exact h'
      · right
        simp only [List.length_cons]
        push_cast at h1 h2 ⊢
        constructor <;> omega

/-- What `extractTitle` does on every content: `Untitled` when one of the two tags
is missing; a panic when both occur and the first `</title>` starts before the end
of the first `<title>`; otherwise the trimmed text between the first `<title>` and
the first `</title>`. -/
theorem extractTitle_cases (content : GoString) :
    extractTitle content =
      if strings.Index content "<title>".toList = -1 ∨
          strings.Index content "</title>".toList = -1 then .ok "Untitled".toList
      else if strings.Index content "</title>".toList <
          strings.Index content "<title>".toList + 7 then .panic "slice bounds out of range"
      else .ok (strings.TrimSpace
        ((content.drop (strings.Index content "<title>".toList + 7).toNat).take
          ((strings.Index content "</title>".toList).toNat -
            (strings.Index content "<title>".toList + 7).toNat))) := by
  have ho := indexFrom_bounds "<title>".toList content 0
  have hc := indexFrom_bounds "</title>".toList content 0
  have hlo : ("<title>".toList.length : Int) = 7 := by decide
  have hlc : ("</title>".toList.length : Int) = 8 := by decide
  rw [hlo] at ho
  rw [hlc] at hc
  unfold extractTitle
  simp only [strings.Index] at ho hc ⊢
  generalize strings.indexFrom "<title>".toList content 0 = a at ho ⊢
  generalize strings.indexFrom "</title>".toList content 0 = b at hc ⊢
  by_cases ha : a = -1
  · simp [ha]
  · by_cases hb : b = -1
    · simp [ha, hb]
    · rcases ho with ho | ⟨ho1, ho2⟩
      · exact absurd ho ha
      · rcases hc with hc | ⟨hc1, hc2⟩
        · exact absurd hc hb
        · by_cases hlt : b < a + 7
          · have : ¬ (0 ≤ a + 7 ∧ a + 7 ≤ b ∧ b ≤ (content.length : Int)) := by omega
            simp [ha, hb, hlt, slice, this]
          · have : (0 ≤ a + 7 ∧ a + 7 ≤ b ∧ b ≤ (content.length : Int)) := by
              push_cast at ho1 ho2 hc1 hc2
              omega
            simp [ha, hb, hlt, slice, this]

/-- Witness of `readPackage_chapters`: on `gapArchive` the entry `c1` yields nothing
and the entry `c2`, at spine position 1, yields the one chapter. -/
theorem readPackage_chapters_witness :
    ∃ chs : List Chapter,
      chaptersOf (readPackage sampleDecoder gapReader) = some ([] ++ chs) ∧
      chs.map (·.Content) = ["<title>Two</title>".toList] ∧
      chs.map (·.Index) = [1] := by
  have hsafe : ∀ itemRef ∈ gapPackage.ItemRefs, ∀ content,
      spineContent gapReader gapPackage.Items itemRef = some content →
        ∃ title, extractTitle content = .ok title := by
    intro itemRef hmem content hc
    have hmem' : itemRef = { IDRef := "c1".toList } ∨ itemRef = { IDRef := "c2".toList } := by
      simpa [gapPackage] using hmem
    rcases hmem' with rfl | rfl
    · have hnone : spineContent gapReader gapPackage.Items { IDRef := "c1".toList } = none := by
        decide
      rw [hnone] at hc
      cases hc
    · have hsome : spineContent gapReader gapPackage.Items { IDRef := "c2".toList } =
          some "<title>Two</title>".toList := by decide
      rw [hsome] at hc
      cases hc
      exact ⟨"Two".toList, by decide⟩
  obtain ⟨chs, h1, h2, h3, _⟩ :=
    readPackage_chapters sampleDecoder gapReader gapPackageXML gapPackage {} rfl rfl rfl hsafe
  exact ⟨chs, h1, h2.trans (by decide), h3.trans (by decide)⟩

/-! ## Lemmas: strings and wrapping -/

theorem len_nil : len [] = 0 := rfl

theorem len_cons (c : Char) (s : GoString) : len (c :: s) = c.utf8Size + len s := by
  simp [len]

theorem len_append (a b : GoString) : len (a ++ b) = len a + len b := by
  simp [len]

theorem len_pos_of_ne_nil {s : GoString} (h : s ≠ []) : 0 < len s := by
  cases s with
  | nil => exact absurd rfl h
  | cons c cs =>
    rw [len_cons]
    have := Char.utf8Size_pos c
    omega

theorem joinSpace_singleton (w : GoString) : joinSpace [w] = w := by
  simp [joinSpace, List.intercalate]

theorem joinSpace_cons_cons (a b : GoString) (l : List GoString) :
    joinSpace (a :: b :: l) = a ++ ' ' :: joinSpace (b :: l) := by
  simp [joinSpace, List.intercalate]

theorem joinSpace_concat (cur : List GoString) (w : GoString) (h : cur ≠ []) :
    joinSpace (cur ++ [w]) = joinSpace cur ++ ' ' :: w := by
  induction cur with
  | nil => exact absurd rfl h
  | cons a l ih =>
    cases l with
    | nil => simp [joinSpace_cons_cons, joinSpace_singleton]
    | cons b l =>
      have := ih (by simp)
      simp only [List.cons_append] at this ⊢
      rw [joinSpace_cons_cons, this, joinSpace_cons_cons]
      simp

theorem len_space_cons (w : GoString) : len (' ' :: w) = len w + 1 := by
  rw [len_cons]
  have : (' ' : Char).utf8Size = 1 := by decide
  omega

theorem wrapStep_close (lines : List GoString) (cur : List GoString) (w : GoString)
    (hw : len (joinSpace cur) + len w + 1 > 80) :
    wrapStep ⟨lines, joinSpace cur, len (joinSpace cur)⟩ w =
      ⟨lines ++ [joinSpace cur], joinSpace [w], len (joinSpace [w])⟩ := by
  simp [wrapStep, maxWidth, hw, joinSpace_singleton]

theorem wrapStep_extend (lines : List GoString) (cur : List GoString) (w : GoString)
    (hcur : cur ≠ []) (hw : ¬ len (joinSpace cur) + len w + 1 > 80) :
    wrapStep ⟨lines, joinSpace cur, len (joinSpace cur)⟩ w =
      ⟨lines, joinSpace (cur ++ [w]), len (joinSpace (cur ++ [w]))⟩ := by
  simp [wrapStep, maxWidth, hw, joinSpace_concat cur w hcur, len_append, len_space_cons]

/-- The word loop of `paginateContent` builds the greedy groups of the words. -/
theorem foldl_wrapStep (rest : List GoString) :
    ∀ (lines : List GoString) (cur : List GoString), cur ≠ [] →
      (rest.foldl wrapStep ⟨lines, joinSpace cur, len (joinSpace cur)⟩).lines ++
        [(rest.foldl wrapStep ⟨lines, joinSpace cur, len (joinSpace cur)⟩).currentLine] =
      lines ++ (greedyGroups rest cur).map joinSpace := by
  induction rest with
  | nil => intro lines cur _; simp [greedyGroups]
  | cons w ws ih =>
    intro lines cur hcur
    by_cases hw : len (joinSpace cur) + len w + 1 > 80
    · rw [List.foldl_cons, wrapStep_close lines cur w hw, ih _ [w] (by simp)]
      simp [greedyGroups, hw]
    · rw [List.foldl_cons, wrapStep_extend lines cur w hcur hw, ih _ (cur ++ [w]) (by simp)]
      simp [greedyGroups, hw]

/-- The line under construction is never empty when the words are not. -/
theorem foldl_wrapStep_currentLine_ne_nil (rest : List GoString)
    (hrest : ∀ w ∈ rest, w ≠ []) :
    ∀ st : WrapState, st.currentLine ≠ [] → (rest.foldl wrapStep st).currentLine ≠ [] := by
  induction rest with
  | nil => intro st h; simpa using h
  | cons w ws ih =>
    intro st h
    rw [List.foldl_cons]
    apply ih (fun x hx => hrest x (List.mem_cons_of_mem _ hx))
    by_cases hc : st.lineLength + len w + 1 > maxWidth
    · simpa [wrapStep, hc] using hrest w (List.mem_cons_self _ _)
    · simp [wrapStep, hc]

/-- `strings.Fields` returns no empty word. -/
theorem mem_fieldsFrom_ne_nil (s : GoString) :
    ∀ cur : GoString, ∀ w ∈ strings.fieldsFrom s cur, w ≠ [] := by
  induction s with
  | nil =>
    intro cur w hw
    unfold strings.fieldsFrom at hw
    split at hw
    · simp at hw
    · simp at hw; subst hw; simpa using ‹¬cur = []›
  | cons c cs ih =>
    intro cur w hw
    unfold strings.fieldsFrom at hw
    split at hw
    · split at hw
      · exact ih _ w hw
      · rcases List.mem_cons.mp hw with h | h
        · subst h; simpa using ‹¬cur = []›
        · exact ih _ w h
    · exact ih _ w hw

theorem fieldsFrom_all_space (s : GoString) (h : ∀ c ∈ s, unicode.IsSpace c = true) :
    strings.fieldsFrom s [] = [] := by
  induction s with
  | nil => simp [strings.fieldsFrom]
  | cons c cs ih =>
    have hc := h c (List.mem_cons_self _ _)
    unfold strings.fieldsFrom
    simp [hc, ih (fun x hx => h x (List.mem_cons_of_mem _ hx))]

/-- `strings.TrimSpace` returns the empty string exactly on strings of white space. -/
theorem trimSpace_eq_nil_iff (s : GoString) :
    strings.TrimSpace s = [] ↔ ∀ c ∈ s, unicode.IsSpace c = true := by
  unfold strings.TrimSpace
  constructor
  · intro h
    have h1 : (List.dropWhile unicode.IsSpace s).reverse.dropWhile unicode.IsSpace = [] := by
      simpa using h
    by_contra hne
    have hd : List.dropWhile unicode.IsSpace s ≠ [] := by
      intro hd
      exact hne (List.dropWhile_eq_nil_iff.mp hd)
    -- the head of the remainder is not a space, and it survives the trailing trim
    cases hdw : List.dropWhile unicode.IsSpace s with
    | nil => exact hd hdw
    | cons a l =>
      have ha : unicode.IsSpace a = false := by
        have := List.head_dropWhile_not unicode.IsSpace s (by rw [hdw]; simp)
        simpa [hdw] using this
      rw [hdw] at h1
      have hall := List.dropWhile_eq_nil_iff.mp h1
      have := hall a (by simp)
      rw [ha] at this
      exact Bool.noConfusion this
  · intro h
    have : List.dropWhile unicode.IsSpace s = [] := List.dropWhile_eq_nil_iff.mpr h
    simp [this]


/-- One round of the paragraph loop appends the lines of the paragraph. -/
theorem paragraphStep_eq (lines : List GoString) (paragraph : GoString) :
    paragraphStep lines paragraph = lines ++ paragraphLines paragraph := by
  unfold paragraphStep paragraphLines
  by_cases ht : strings.TrimSpace paragraph = []
  · have hf : strings.Fields paragraph = [] :=
      fieldsFrom_all_space paragraph ((trimSpace_eq_nil_iff paragraph).mp ht)
    simp [ht, hf]
  · rw [if_neg ht]
    cases hf : strings.Fields paragraph with
    | nil => simp
    | cons first rest =>
      have hne : ∀ w ∈ first :: rest, w ≠ [] := by
        intro w hw
        rw [← hf] at hw
        exact mem_fieldsFrom_ne_nil paragraph [] w hw
      have hcur := foldl_wrapStep_currentLine_ne_nil rest
        (fun w hw => hne w (List.mem_cons_of_mem _ hw)) ⟨lines, first, len first⟩
        (hne first (List.mem_cons_self _ _))
      have hfold := foldl_wrapStep rest lines [first] (by simp)
      rw [joinSpace_singleton] at hfold
      simp only [len_pos_of_ne_nil hcur, if_true, hfold, List.append_assoc]

theorem foldl_paragraphStep (paragraphs : List GoString) :
    ∀ lines : List GoString,
      paragraphs.foldl paragraphStep lines = lines ++ paragraphs.flatMap paragraphLines := by
  induction paragraphs with
  | nil => intro lines; simp
  | cons p ps ih =>
    intro lines
    rw [List.foldl_cons, ih, paragraphStep_eq]
    simp [List.flatMap_cons]

/-- The wrapped lines are the lines of the paragraphs, in order. -/
theorem wrappedLines_eq_flatMap (content : GoString) :
    wrappedLines content =
      (strings.Split content "\n\n".toList).flatMap paragraphLines := by
  unfold wrappedLines
  rw [foldl_paragraphStep]
  simp

theorem greedyGroups_flatten (ws : List GoString) :
    ∀ cur : List GoString, (greedyGroups ws cur).flatten = cur ++ ws := by
  induction ws with
  | nil => intro cur; simp [greedyGroups]
  | cons w ws ih =>
    intro cur
    unfold greedyGroups
    split
    · simp [ih]
    · simp [ih]

/-- Every greedy group is within 80 bytes once joined, or is a single word. -/
theorem greedyGroups_bound (ws : List GoString) :
    ∀ cur : List GoString, cur ≠ [] →
      (len (joinSpace cur) ≤ 80 ∨ cur.length = 1) →
      ∀ g ∈ greedyGroups ws cur,
        g ≠ [] ∧ (len (joinSpace g) ≤ 80 ∨ g.length = 1) := by
  induction ws with
  | nil =>
    intro cur hcur hb g hg
    simp [greedyGroups] at hg
    subst hg
    exact ⟨hcur, hb⟩
  | cons w ws ih =>
    intro cur hcur hb g hg
    unfold greedyGroups at hg
    split at hg
    · rcases List.mem_cons.mp hg with h | h
      · subst h; exact ⟨hcur, hb⟩
      · exact ih [w] (by simp) (Or.inr rfl) g h
    · rename_i hw
      refine ih (cur ++ [w]) (by simp) (Or.inl ?_) g hg
      rw [joinSpace_concat cur w hcur, len_append, len_space_cons]
      omega

theorem len_le_len_joinSpace (g : List GoString) (w : GoString) (hw : w ∈ g) :
    len w ≤ len (joinSpace g) := by
  induction g with
  | nil => simp at hw
  | cons a l ih =>
    cases l with
    | nil =>
      simp at hw
      subst hw
      simp [joinSpace_singleton]
    | cons b l =>
      rw [joinSpace_cons_cons, len_append, len_space_cons]
      rcases List.mem_cons.mp hw with h | h
      · subst h; omega
      · have := ih h
        omega

/-- The pieces `strings.Split` returns are made of runes of the split string. -/
theorem mem_splitFrom (sep : GoString) (s : GoString) :
    ∀ (skip : Nat) (cur : GoString), ∀ p ∈ strings.splitFrom sep s skip cur,
      ∀ c ∈ p, c ∈ cur ∨ c ∈ s := by
  induction s with
  | nil =>
    intro skip cur p hp c hc
    simp [strings.splitFrom] at hp
    subst hp
    left
    simpa using hc
  | cons a cs ih =>
    intro skip cur p hp c hc
    cases skip with
    | succ k =>
      simp only [strings.splitFrom] at hp
      rcases ih k cur p hp c hc with h | h
      · exact Or.inl h
      · exact Or.inr (List.mem_cons_of_mem _ h)
    | zero =>
      simp only [strings.splitFrom] at hp
      split at hp
      · rcases List.mem_cons.mp hp with h | h
        · subst h
          left
          simpa using hc
        · rcases ih _ [] p h c hc with h' | h'
          · simp at h'
          · exact Or.inr (List.mem_cons_of_mem _ h')
      · rcases ih 0 (a :: cur) p hp c hc with h' | h'
        · rcases List.mem_cons.mp h' with h'' | h''
          · subst h''; right; simp
          · exact Or.inl h''
        · exact Or.inr (List.mem_cons_of_mem _ h')

theorem wrappedLines_of_all_space (content : GoString)
    (h : ∀ c ∈ content, unicode.IsSpace c = true) : wrappedLines content = [] := by
  rw [wrappedLines_eq_flatMap]
  apply List.flatMap_eq_nil_iff.mpr
  intro p hp
  have hall : ∀ c ∈ p, unicode.IsSpace c = true := by
    intro c hc
    rcases mem_splitFrom _ content 0 [] p hp c hc with h' | h'
    · simp at h'
    · exact h c h'
  simp [paragraphLines, strings.Fields, fieldsFrom_all_space p hall]


theorem pageStep_flush (p : Nat) (st : PageState) (line : GoString)
    (h : st.lineCount = (p : Int)) :
    pageStep p st line =
      ⟨st.pages ++ [strings.TrimSpace st.currentPage], line ++ ['\n'], 1⟩ := by
  simp [pageStep, h]

theorem pageStep_keep (p c : Nat) (st : PageState) (line : GoString)
    (h : st.lineCount = (c : Int)) (hc : c < p) :
    pageStep p st line = ⟨st.pages, st.currentPage ++ line ++ ['\n'], ((c + 1 : Nat) : Int)⟩ := by
  have : ¬ ((p : Int) ≤ (c : Int)) := by omega
  simp [pageStep, h, this]

/-- The page loop from a state holding `c >= 1` lines on the current page. -/
theorem foldl_pageStep (p : Nat) (hp : 1 ≤ p) (lines : List GoString) :
    ∀ (st : PageState) (c : Nat), st.lineCount = (c : Int) → 1 ≤ c → c ≤ p →
      st.currentPage ≠ [] →
      ((lines.foldl (pageStep p) st).pages.length =
          st.pages.length + (c + lines.length - 1) / p) ∧
        (lines.foldl (pageStep p) st).currentPage ≠ [] := by
  induction lines with
  | nil =>
    intro st c hc h1 hle hne
    refine ⟨?_, by simpa using hne⟩
    have : (c - 1) / p = 0 := Nat.div_eq_of_lt (by omega)
    simp [this]
  | cons line rest ih =>
    intro st c hc h1 hle hne
    rw [List.foldl_cons]
    by_cases hcp : c = p
    · subst hcp
      rw [pageStep_flush c st line hc]
      obtain ⟨hlen, hcur⟩ := ih ⟨st.pages ++ [strings.TrimSpace st.currentPage], line ++ ['\n'], 1⟩
        1 (by simp) (by omega) hp (by simp)
      refine ⟨?_, hcur⟩
      have e1 : 1 + rest.length - 1 = rest.length := by omega
      have e2 : c + (rest.length + 1) - 1 = rest.length + c := by omega
      rw [hlen, e1]
      simp only [List.length_append, List.length_singleton]
      rw [List.length_cons, e2, Nat.add_div_right _ (by omega : 0 < c)]
      omega
    · rw [pageStep_keep p c st line hc (by omega)]
      obtain ⟨hlen, hcur⟩ := ih ⟨st.pages, st.currentPage ++ line ++ ['\n'], ((c + 1 : Nat) : Int)⟩
        (c + 1) rfl (by omega) (by omega) (by simp)
      refine ⟨?_, hcur⟩
      rw [hlen]
      simp only [List.length_cons]
      have e : c + 1 + rest.length - 1 = c + (rest.length + 1) - 1 := by omega
      rw [e]

/-- The page loop returns `(L + p - 1) / p` pages for `L` lines and page size `p >= 1`. -/
theorem groupPages_length (p : Nat) (hp : 1 ≤ p) (lines : List GoString) :
    (groupPages p lines).length = (lines.length + p - 1) / p := by
  cases lines with
  | nil =>
    have : (p - 1) / p = 0 := Nat.div_eq_of_lt (by omega)
    simp [groupPages, len_nil, this]
  | cons line rest =>
    unfold groupPages
    simp only [List.foldl_cons]
    rw [pageStep_keep p 0 ⟨[], [], 0⟩ line rfl (by omega)]
    obtain ⟨hlen, hcur⟩ := foldl_pageStep p hp rest ⟨[], [] ++ line ++ ['\n'], ((0 + 1 : Nat) : Int)⟩
      1 rfl (by omega) hp (by simp)
    simp only [len_pos_of_ne_nil hcur, if_true, List.length_append, hlen, List.length_singleton,
      List.length_cons, List.length_nil]
    have e1 : 1 + rest.length - 1 = rest.length := by omega
    have e2 : rest.length + 1 + p - 1 = rest.length + p := by omega
    rw [e1, e2, Nat.add_div_right _ (by omega : 0 < p)]
    omega

/-- The rounded-up quotient, as the ceiling of the rational quotient. -/
theorem ceil_div_eq (n p : Nat) (hp : 1 ≤ p) :
    ⌈(n : ℚ) / (p : ℚ)⌉ = (((n + p - 1) / p : Nat) : Int) := by
  have hp0 : (0 : ℚ) < (p : ℚ) := by exact_mod_cast hp
  have hdm := Nat.div_add_mod' (n + p - 1) p
  have hmod := Nat.mod_lt (n + p - 1) (by omega : p > 0)
  generalize (n + p - 1) / p = q at hdm ⊢
  generalize hr : (n + p - 1) % p = r at hdm hmod
  generalize ht : q * p = t at hdm
  have hq1 : t < n + p := by omega
  have hq2 : n ≤ t := by omega
  have hq1' : (q : ℚ) * (p : ℚ) < (n : ℚ) + (p : ℚ) := by
    have : ((q * p : Nat) : ℚ) < ((n + p : Nat) : ℚ) := by rw [ht]; exact_mod_cast hq1
    simpa using this
  have hq2' : (n : ℚ) ≤ (q : ℚ) * (p : ℚ) := by
    have : ((n : Nat) : ℚ) ≤ ((q * p : Nat) : ℚ) := by rw [ht]; exact_mod_cast hq2
    simpa using this
  rw [Int.ceil_eq_iff]
  simp only [Int.cast_natCast]
  constructor
  · rw [lt_div_iff₀ hp0]
    linarith
  · rw [div_le_iff₀ hp0]
    exact hq2'


theorem paragraphLines_of_fields_nil (p : GoString) (h : strings.Fields p = []) :
    paragraphLines p = [] := by
  simp [paragraphLines, h]

theorem paragraphLines_of_fields_ne_nil (p : GoString) (h : strings.Fields p ≠ []) :
    paragraphLines p = (lineGroups (strings.Fields p)).map joinSpace ++ [[]] := by
  unfold paragraphLines lineGroups
  cases hf : strings.Fields p with
  | nil => exact absurd hf h
  | cons first rest => rfl

theorem flatMap_paragraphLines (ps : List GoString) :
    ps.flatMap paragraphLines =
      (ps.filter (fun p => strings.Fields p ≠ [])).flatMap
        (fun p => (lineGroups (strings.Fields p)).map joinSpace ++ [[]]) := by
  induction ps with
  | nil => simp
  | cons p ps ih =>
    by_cases h : strings.Fields p = []
    · simp [List.flatMap_cons, paragraphLines_of_fields_nil p h, h, ih]
    · simp [List.flatMap_cons, paragraphLines_of_fields_ne_nil p h, h, ih]

theorem length_flatMap_paragraphLines (ps : List GoString) :
    (ps.flatMap paragraphLines).length =
      ((ps.filter (fun p => strings.Fields p ≠ [])).map
        (fun p => (lineGroups (strings.Fields p)).length + 1)).sum := by
  induction ps with
  | nil => simp
  | cons p ps ih =>
    by_cases h : strings.Fields p = []
    · simp [List.flatMap_cons, paragraphLines_of_fields_nil p h, h, ih]
    · simp [List.flatMap_cons, paragraphLines_of_fields_ne_nil p h, h, ih]
      omega

/-- The greedy groups of a word list: they concatenate to it, and each is within 80
bytes or a single word. -/
theorem lineGroups_spec (words : List GoString) :
    (lineGroups words).flatten = words ∧
    ∀ g ∈ lineGroups words,
      g ≠ [] ∧ (len (joinSpace g) ≤ 80 ∨ g.length = 1) ∧
      ∀ w ∈ g, 80 < len w → g = [w] := by
  cases words with
  | nil => simp [lineGroups]
  | cons first rest =>
    refine ⟨by simp [lineGroups, greedyGroups_flatten], ?_⟩
    intro g hg
    obtain ⟨hne, hb⟩ := greedyGroups_bound rest [first] (by simp) (Or.inr rfl) g hg
    refine ⟨hne, hb, ?_⟩
    intro w hw hlong
    have hle := len_le_len_joinSpace g w hw
    rcases hb with hb | hb
    · omega
    · obtain ⟨a, rfl⟩ := List.length_eq_one.mp hb
      simp at hw
      rw [hw]

/-! ## Theorems: pagination -/

/-- C5: for a page size `P >= 1`, `paginateContent` returns `ceil(L / P)` pages,
where `L` is the number of wrapped lines, which is the sum over the paragraphs that
hold a word of (number of greedy lines of the paragraph + 1 separator line); text
made of white space only (the empty text included) gives no page. -/
theorem paginateContent_page_count (v : CLIViewer) (content : GoString)
    (hP : 1 ≤ v.pageSize) :
    ((v.paginateContent content).length : Int) =
        ⌈((wrappedLines content).length : ℚ) / (v.pageSize : ℚ)⌉ ∧
    (wrappedLines content).length =
        (((strings.Split content "\n\n".toList).filter (fun p => strings.Fields p ≠ [])).map
          (fun p => (lineGroups (strings.Fields p)).length + 1)).sum ∧
    ((∀ c ∈ content, unicode.IsSpace c = true) → v.paginateContent content = []) := by
  obtain ⟨p, hp⟩ := Int.eq_ofNat_of_zero_le (by omega : 0 ≤ v.pageSize)
  have hp1 : 1 ≤ p := by omega
  refine ⟨?_, ?_, ?_⟩
  · unfold CLIViewer.paginateContent
    rw [hp, groupPages_length p hp1]
    have := ceil_div_eq (wrappedLines content).length p hp1
    simp only [Int.cast_natCast]
    exact this.symm
  · rw [wrappedLines_eq_flatMap, length_flatMap_paragraphLines]
  · intro h
    unfold CLIViewer.paginateContent
    rw [wrappedLines_of_all_space content h]
    simp [groupPages, len_nil]

/-- Witness of C5: three paragraphs with a word give six lines, hence three pages
of two lines. -/
theorem paginateContent_page_count_witness :
    (1 : Int) ≤ twoLineViewer.pageSize ∧
    (wrappedLines sampleText).length = 6 ∧
    (twoLineViewer.paginateContent sampleText).length = 3 ∧
    ((twoLineViewer.paginateContent sampleText).length : Int) =
      ⌈((wrappedLines sampleText).length : ℚ) / (twoLineViewer.pageSize : ℚ)⌉ :=
  ⟨by decide, by decide, by decide,
    (paginateContent_page_count twoLineViewer sampleText (by decide)).1⟩

/-- C6: the wrapped lines are, paragraph by paragraph, the greedy groups of the
paragraph's words joined by single spaces, followed by one empty line.  The groups
of a paragraph concatenate to its words (no word is split, lost or reordered);
every group is non-empty and its line is at most 80 bytes long unless the group is
a single word; a word longer than 80 bytes is a group by itself.  The width is the
number 80 of the specification, not the constant of the code. -/
theorem wrappedLines_are_greedy_word_groups (content : GoString) :
    wrappedLines content =
      ((strings.Split content "\n\n".toList).filter (fun p => strings.Fields p ≠ [])).flatMap
        (fun p => (lineGroups (strings.Fields p)).map joinSpace ++ [[]]) ∧
    (∀ p ∈ strings.Split content "\n\n".toList,
      (lineGroups (strings.Fields p)).flatten = strings.Fields p ∧
      ∀ g ∈ lineGroups (strings.Fields p),
        g ≠ [] ∧ (len (joinSpace g) ≤ 80 ∨ g.length = 1) ∧
        ∀ w ∈ g, 80 < len w → g = [w]) ∧
    (∀ line ∈ wrappedLines content, ∃ p ∈ strings.Split content "\n\n".toList,
      ∃ ws : List GoString, ws <:+: strings.Fields p ∧ line = joinSpace ws ∧
        (len line ≤ 80 ∨ ws.length = 1)) := by
  have h1 := (wrappedLines_eq_flatMap content).trans (flatMap_paragraphLines _)
  refine ⟨h1, fun p _ => lineGroups_spec _, ?_⟩
  intro line hline
  rw [h1] at hline
  obtain ⟨p, hp, hl⟩ := List.mem_flatMap.mp hline
  have hp' := (List.mem_filter.mp hp).1
  refine ⟨p, hp', ?_⟩
  rcases List.mem_append.mp hl with h | h
  · obtain ⟨g, hg, rfl⟩ := List.mem_map.mp h
    obtain ⟨hfl, hprop⟩ := lineGroups_spec (strings.Fields p)
    refine ⟨g, ?_, rfl, (hprop g hg).2.1⟩
    rw [← hfl]
    exact List.infix_of_mem_flatten hg
  · simp at h
    subst h
    exact ⟨[], List.nil_infix, rfl, Or.inl (by simp [len_nil])⟩

/-- Witness of C6: the width is 80 bytes.  Words of 40 and 40 bytes take two lines,
words of 40 and 39 bytes share a line of exactly 80 bytes, a word of 94 bytes has a
line of its own, and the paragraph ends with the empty separator line. -/
theorem wrappedLines_width_witness :
    wrappedLines widthText =
      [List.replicate 40 'a', List.replicate 40 'b' ++ ' ' :: List.replicate 39 'c', ['d'],
        List.replicate 94 'e', ['f'], []] ∧
    (wrappedLines widthText).map len = [40, 80, 1, 94, 1, 0] ∧
    (∀ line ∈ wrappedLines widthText, ∃ p ∈ strings.Split widthText "\n\n".toList,
      ∃ ws : List GoString, ws <:+: strings.Fields p ∧ line = joinSpace ws ∧
        (len line ≤ 80 ∨ ws.length = 1)) :=
  ⟨by decide, by decide, (wrappedLines_are_greedy_word_groups widthText).2.2⟩

/-! ## Theorems: progress store -/

/-- C9: for a book with `T = len(book.Chapters)` chapters and a store file that
decodes, `loadProgress` on a viewer at the default position returns no error and
leaves `currentPos` equal to the position recorded for the current file if that
record exists and its chapter index `c` satisfies `0 <= c < T`, and equal to
`{0,0}` otherwise (no record, `c < 0`, or `c >= T`). -/
theorem loadProgress_applies_record_iff_chapter_in_range (v : CLIViewer) (os : OS)
    (field : JSONField) (book : Book) (hfile : v.currentFile ≠ [])
    (hhome : os.userHomeDirErr = none) (hread : os.readFileErr = none)
    (hdata : os.progressFile = some (.document field))
    (hpos : v.currentPos = { Chapter := 0, Page := 0 })
    (hbook : v.reader.book = some book) :
    (v.loadProgress os).1 = .ok () ∧
    (v.loadProgress os).2.currentPos =
      match storedRecord field v.currentFile with
      | some progress =>
        if 0 ≤ progress.Position.Chapter ∧
            progress.Position.Chapter < (book.Chapters.length : Int) then progress.Position
        else { Chapter := 0, Page := 0 }
      | none => { Chapter := 0, Page := 0 } := by
  have hT : v.reader.GetTotalChapters = (book.Chapters.length : Int) := by
    simp only [EPUBReader.GetTotalChapters, hbook]
  unfold CLIViewer.loadProgress
  rw [if_neg hfile, hT]
  simp only [hhome, hread, hdata]
  cases field with
  | absent => simp [json.Unmarshal, storedRecord, GoMap.empty, hpos]
  | null => simp [json.Unmarshal, storedRecord, GoMap.empty, hpos]
  | entries m =>
    simp only [json.Unmarshal, storedRecord, Option.getD, GoMap.empty, Option.orElse_none]
    cases hm : m v.currentFile with
    | none => simp [hm, hpos]
    | some progress =>
      simp only [hm, Option.orElse]
      by_cases hc : progress.Position.Chapter ≥ 0 ∧
          progress.Position.Chapter < (book.Chapters.length : Int)
      · rw [if_pos hc, if_pos hc]; simp
      · rw [if_neg hc, if_neg hc]; simp [hpos]

/-- Witness of C9, on the book of two chapters: the recorded chapter 1 (page 4) is
applied, the recorded chapters 2 and -1 are discarded and the position stays
`{0,0}`. -/
theorem loadProgress_applies_record_witness :
    sampleBook.Chapters.length = 2 ∧
    ((sampleViewer.loadProgress { progressFile := some (.document sampleStore) }).1 = .ok () ∧
      (sampleViewer.loadProgress
          { progressFile := some (.document sampleStore) }).2.currentPos =
        { Chapter := 1, Page := 4 }) ∧
    ((sampleViewer.loadProgress
          { progressFile := some (.document (storeAt { Chapter := 2, Page := 4 })) }).1 =
        .ok () ∧
      (sampleViewer.loadProgress
          { progressFile := some (.document (storeAt { Chapter := 2, Page := 4 })) }).2.currentPos =
        { Chapter := 0, Page := 0 }) ∧
    ((sampleViewer.loadProgress
          { progressFile := some (.document (storeAt { Chapter := -1, Page := 4 })) }).1 =
        .ok () ∧
      (sampleViewer.loadProgress
          { progressFile := some (.document (storeAt { Chapter := -1, Page := 4 })) }).2.currentPos =
        { Chapter := 0, Page := 0 }) :=
  have h1 := loadProgress_applies_record_iff_chapter_in_range sampleViewer
    { progressFile := some (.document sampleStore) } sampleStore sampleBook
    (by decide) rfl rfl rfl rfl rfl
  have h2 := loadProgress_applies_record_iff_chapter_in_range sampleViewer
    { progressFile := some (.document (storeAt { Chapter := 2, Page := 4 })) }
    (storeAt { Chapter := 2, Page := 4 }) sampleBook (by decide) rfl rfl rfl rfl rfl
  have h3 := loadProgress_applies_record_iff_chapter_in_range sampleViewer
    { progressFile := some (.document (storeAt { Chapter := -1, Page := 4 })) }
    (storeAt { Chapter := -1, Page := 4 }) sampleBook (by decide) rfl rfl rfl rfl rfl
  ⟨by decide, ⟨h1.1, h1.2.trans (by decide)⟩, ⟨h2.1, h2.2.trans (by decide)⟩,
    ⟨h3.1, h3.2.trans (by decide)⟩⟩

/-- C8 as stated fails: on a store file that does not decode, `loadProgress`
returns a non-nil error. -/
theorem loadProgress_undecodable_not_ok :
    (sampleViewer.loadProgress
        { progressFile := some (.undecodable "unexpected end of JSON input") }).1 =
      .err "failed to unmarshal progress data: unexpected end of JSON input" ∧
    (sampleViewer.loadProgress
        { progressFile := some (.undecodable "unexpected end of JSON input") }).1 ≠ .ok () := by
  refine ⟨by decide, by decide⟩

/-- C8, amended: on a store file that does not decode, `loadProgress` returns the
error `failed to unmarshal progress data` and leaves the viewer, hence the
position, as it was. -/
theorem loadProgress_undecodable_is_error (v : CLIViewer) (os : OS) (msg : String)
    (hfile : v.currentFile ≠ []) (hhome : os.userHomeDirErr = none)
    (hread : os.readFileErr = none) (hdata : os.progressFile = some (.undecodable msg)) :
    v.loadProgress os = (.err ("failed to unmarshal progress data: " ++ msg), v) := by
  unfold CLIViewer.loadProgress
  rw [if_neg hfile]
  simp only [hhome, hread, hdata, json.Unmarshal]

/-- Witness of the amended C8: the viewer at the default position stays there. -/
theorem loadProgress_undecodable_witness :
    sampleViewer.loadProgress
        { progressFile := some (.undecodable "unexpected end of JSON input") } =
      (.err ("failed to unmarshal progress data: " ++ "unexpected end of JSON input"),
        sampleViewer) ∧
    sampleViewer.currentPos = { Chapter := 0, Page := 0 } :=
  ⟨loadProgress_undecodable_is_error sampleViewer
      { progressFile := some (.undecodable "unexpected end of JSON input") }
      "unexpected end of JSON input" (by decide) rfl rfl rfl, rfl⟩

/-- C7 as stated fails: with a two-chapter book and no store file, saving the
position chapter 5, page 3 succeeds, and loading it back on a viewer at the
default position succeeds and leaves `{0,0}`, not the saved position. -/
theorem saveProgress_loadProgress_drops_out_of_range :
    ({ sampleViewer with currentPos := { Chapter := 5, Page := 3 } }.saveProgress {}).1 =
      .ok () ∧
    (sampleViewer.loadProgress
      ({ sampleViewer with currentPos := { Chapter := 5, Page := 3 } }.saveProgress {}).2).1 =
      .ok () ∧
    (sampleViewer.loadProgress
      ({ sampleViewer with currentPos := { Chapter := 5, Page := 3 } }.saveProgress {}).2).2.currentPos =
      { Chapter := 0, Page := 0 } ∧
    (sampleViewer.loadProgress
      ({ sampleViewer with currentPos := { Chapter := 5, Page := 3 } }.saveProgress {}).2).2.currentPos ≠
      { Chapter := 5, Page := 3 } := by
  refine ⟨by decide, by decide, by decide, by decide⟩

/-- C7, amended: with no store file and no failing system call, `saveProgress` at
position `pos` returns no error, and `loadProgress` for the same path on a viewer
at the default position then returns no error and leaves `currentPos = pos` when
`0 <= pos.Chapter < GetTotalChapters()`, and `{0,0}` otherwise. -/
theorem saveProgress_then_loadProgress (v : CLIViewer) (os : OS) (pos : CurrentPos)
    (hfile : v.currentFile ≠ []) (hnone : os.progressFile = none)
    (hhome : os.userHomeDirErr = none) (hmkdir : os.mkdirAllErr = none)
    (hread : os.readFileErr = none) (hwrite : os.writeFileErr = none)
    (hrename : os.renameErr = none) :
    ({ v with currentPos := pos }.saveProgress os).1 = .ok () ∧
    ({ v with currentPos := { Chapter := 0, Page := 0 } }.loadProgress
        ({ v with currentPos := pos }.saveProgress os).2).1 = .ok () ∧
    ({ v with currentPos := { Chapter := 0, Page := 0 } }.loadProgress
        ({ v with currentPos := pos }.saveProgress os).2).2.currentPos =
      if 0 ≤ pos.Chapter ∧ pos.Chapter < v.reader.GetTotalChapters then pos
      else { Chapter := 0, Page := 0 } := by
  have hs : { v with currentPos := pos }.saveProgress os =
      (.ok (), { os with
        progressFile := some (.document (.entries (GoMap.empty.set v.currentFile
          { FilePath := v.currentFile, Position := pos }))),
        tempFile := none }) := by
    unfold CLIViewer.saveProgress
    simp only [if_neg hfile, hnone, hhome, hmkdir, hread, hwrite, hrename, json.MarshalIndent]
  rw [hs]
  refine ⟨rfl, ?_⟩
  unfold CLIViewer.loadProgress
  simp only [if_neg hfile, hhome, hread, json.Unmarshal, Option.getD, GoMap.set, GoMap.empty,
    if_true, Option.orElse]
  by_cases hc : pos.Chapter ≥ 0 ∧ pos.Chapter < v.reader.GetTotalChapters
  · rw [if_pos hc, if_pos hc]; simp
  · rw [if_neg hc, if_neg hc]; simp

/-- Witness of the amended C7: chapter 1, page 4 of a two-chapter book comes back. -/
theorem saveProgress_then_loadProgress_witness :
    ({ sampleViewer with currentPos := { Chapter := 0, Page := 0 } }.loadProgress
        ({ sampleViewer with currentPos := { Chapter := 1, Page := 4 } }.saveProgress {}).2).2.currentPos =
      { Chapter := 1, Page := 4 } :=
  (saveProgress_then_loadProgress sampleViewer {} { Chapter := 1, Page := 4 }
    (by decide) rfl rfl rfl rfl rfl rfl).2.2.trans (by decide)

/-! ## Theorems: formatting -/

mutual
/-- The closure `extract` appends to the buffer the text of the walk that puts one
space after every text node. -/
theorem extract_eq :
    ∀ (n : html.Node) (buf : GoString), extract n buf = buf ++ flatText [' '] n
  | .mk nodeType data firstChild _, buf => by
    simp only [extract, flatText, extractChildren_eq firstChild]
    split_ifs <;> simp only [List.append_assoc, List.append_nil, List.nil_append]
theorem extractChildren_eq :
    ∀ (c : html.NodePtr) (buf : GoString), extractChildren c buf = buf ++ flatChildren [' '] c
  | .nil, buf => by simp [extractChildren, flatChildren]
  | .ptr (.mk nodeType data firstChild nextSibling), buf => by
    rw [extractChildren, extract_eq, extractChildren_eq nextSibling, flatChildren,
      List.append_assoc]
end

/-- C11, amended: `formatContent` returns the content itself when the parser fails,
and otherwise the white-space trim of the document-order walk in which every text
node contributes its own text followed by one space, children are visited in
order, and every `p` or `div` element contributes `\n\n` after its children. -/
theorem formatContent_eq_trim_flatText (v : CLIViewer) (parse : HTMLParser) (content : GoString) :
    v.formatContent parse content =
      match parse content with
      | .error _ => content
      | .ok doc => strings.TrimSpace (flatText [' '] doc) := by
  unfold CLIViewer.formatContent
  cases parse content with
  | error e => rfl
  | ok doc => simp only [extract_eq doc [], List.nil_append]

/-- C11 as stated fails: for `<p>a<b>b</b></p>` `formatContent` returns `a b`, where
the walk in which a text node contributes nothing but its text gives `ab`. -/
theorem formatContent_adds_space :
    sampleViewer.formatContent sampleParse "<p>a<b>b</b></p>".toList = "a b".toList ∧
    strings.TrimSpace (flatText [] (html.document
      (html.element "p" (html.text "a" (html.element "b" (html.text "b" .nil) .nil)) .nil))) =
      "ab".toList := by
  refine ⟨by decide, by decide⟩

/-! ## Theorems: keys and the progress store -/

/-- On `q`, and on Escape, `handleKeyPress` returns whatever `saveProgress` returns. -/
theorem handleKeyPress_quit_eq_saveProgress (v : CLIViewer) (parse : HTMLParser) (os : OS)
    (kb : Keyboard) (char : Char) :
    (v.handleKeyPress parse os kb 'q' .none).1 =
      ({ v with shouldExit := true }.saveProgress os).1 ∧
    (v.handleKeyPress parse os kb char .KeyEsc).1 =
      ({ v with shouldExit := true }.saveProgress os).1 := by
  constructor <;> simp [CLIViewer.handleKeyPress]

/-- C12 (the code departs from the claim): when the temporary progress file cannot
be written, `handleKeyPress` returns the error of `saveProgress` for `q` and for
Escape, and `eventLoop` ends with that error; for `s` it returns nil. -/
theorem handleKeyPress_returns_save_error :
    (sampleViewer.handleKeyPress sampleParse readOnlyOS quitKeys 'q' .none).1 =
      .err "failed to write temporary progress file: permission denied" ∧
    (sampleViewer.handleKeyPress sampleParse readOnlyOS quitKeys (Char.ofNat 0) .KeyEsc).1 =
      .err "failed to write temporary progress file: permission denied" ∧
    (sampleViewer.handleKeyPress sampleParse readOnlyOS quitKeys 's' .none).1 = .ok () ∧
    (CLIViewer.eventLoop sampleParse 2 sampleViewer readOnlyOS quitKeys).1 =
      some (.err "failed to write temporary progress file: permission denied") := by
  refine ⟨by decide, by decide, by decide, by decide⟩

/-- C13 (the code departs from the claim): on a store file that decodes with a null
map field, `saveProgress` does not complete: the assignment to the nil map panics. -/
theorem saveProgress_panics_on_null_map :
    (sampleViewer.saveProgress { progressFile := some (.document .null) }).1 =
      .panic "assignment to entry in nil map" := by
  decide

/-- For every other prior content of the store file (absent, undecodable, a document
without the key, a map) and no failing system call, `saveProgress` returns nil and
the persisted map sends the current path to `{currentFile, currentPos}` and every
other path to what the prior map held (nothing when there was no prior map). -/
theorem saveProgress_frame (v : CLIViewer) (os : OS)
    (hfile : v.currentFile ≠ []) (hhome : os.userHomeDirErr = none)
    (hmkdir : os.mkdirAllErr = none) (hread : os.readFileErr = none)
    (hwrite : os.writeFileErr = none) (hrename : os.renameErr = none)
    (hprior : os.progressFile ≠ some (.document .null)) :
    (v.saveProgress os).1 = .ok () ∧
    ∃ m : GoMap ReadingProgress,
      (v.saveProgress os).2.progressFile = some (.document (.entries m)) ∧
      m v.currentFile = some { FilePath := v.currentFile, Position := v.currentPos } ∧
      ∀ path, path ≠ v.currentFile → m path = priorRecords os.progressFile path := by
  unfold CLIViewer.saveProgress
  rw [if_neg hfile]
  simp only [hhome, hmkdir, hread, hwrite, hrename]
  cases hp : os.progressFile with
  | none =>
    refine ⟨rfl, _, rfl, by simp [GoMap.set], ?_⟩
    intro path hpath
    simp [GoMap.set, hpath, priorRecords, json.MarshalIndent]
  | some data =>
    cases data with
    | undecodable msg =>
      refine ⟨rfl, _, rfl, by simp [GoMap.set], ?_⟩
      intro path hpath
      simp [GoMap.set, hpath, priorRecords]
    | document field =>
      cases field with
      | null => exact absurd hp hprior
      | absent =>
        refine ⟨rfl, _, rfl, by simp [GoMap.set], ?_⟩
        intro path hpath
        simp [GoMap.set, hpath, priorRecords]
      | entries m =>
        refine ⟨rfl, _, rfl, by simp [GoMap.set], ?_⟩
        intro path hpath
        simp [GoMap.set, hpath, priorRecords, GoMap.empty]


/-! ## Theorems: words survive pagination -/

/-- A white-space rune ends the word before it and starts none. -/
theorem fieldsFrom_append_space (a b : GoString) (c : Char) (hc : unicode.IsSpace c = true) :
    ∀ cur : GoString,
      strings.fieldsFrom (a ++ c :: b) cur = strings.fieldsFrom a cur ++ strings.fieldsFrom b [] := by
  induction a with
  | nil =>
    intro cur
    by_cases h : cur = [] <;> simp [strings.fieldsFrom, hc, h]
  | cons x a ih =>
    intro cur
    by_cases hx : unicode.IsSpace x = true
    · by_cases h : cur = [] <;> simp [strings.fieldsFrom, hx, h, ih]
    · simp [strings.fieldsFrom, hx, ih]

theorem fieldsFrom_spaces (sp : GoString) (hsp : ∀ c ∈ sp, unicode.IsSpace c = true) :
    ∀ cur : GoString, strings.fieldsFrom sp cur = strings.fieldsFrom [] cur := by
  induction sp with
  | nil => intro cur; rfl
  | cons c sp ih =>
    intro cur
    have hc := hsp c (List.mem_cons_self _ _)
    have ih' := ih (fun x hx => hsp x (List.mem_cons_of_mem _ hx))
    by_cases h : cur = []
    · simp [strings.fieldsFrom, hc, h, ih']
    · have := fieldsFrom_append_space [] sp c hc cur
      simp only [List.nil_append] at this
      rw [this, ih' []]
      simp [strings.fieldsFrom]

theorem fieldsFrom_append_spaces (t sp : GoString) (hsp : ∀ c ∈ sp, unicode.IsSpace c = true) :
    ∀ cur : GoString, strings.fieldsFrom (t ++ sp) cur = strings.fieldsFrom t cur := by
  induction t with
  | nil => intro cur; simpa using fieldsFrom_spaces sp hsp cur
  | cons x t ih =>
    intro cur
    by_cases hx : unicode.IsSpace x = true
    · by_cases h : cur = [] <;> simp [strings.fieldsFrom, hx, h, ih]
    · simp [strings.fieldsFrom, hx, ih]

theorem fields_dropWhile (s : GoString) :
    strings.Fields (s.dropWhile unicode.IsSpace) = strings.Fields s := by
  induction s with
  | nil => rfl
  | cons c s ih =>
    by_cases hc : unicode.IsSpace c = true
    · rw [List.dropWhile_cons_of_pos hc, ih]
      simp [strings.Fields, strings.fieldsFrom, hc]
    · rw [List.dropWhile_cons_of_neg hc]

/-- Trimming white space changes no word. -/
theorem fields_trimSpace (s : GoString) :
    strings.Fields (strings.TrimSpace s) = strings.Fields s := by
  unfold strings.TrimSpace
  rw [← fields_dropWhile s]
  generalize s.dropWhile unicode.IsSpace = t
  have hsplit : t = (t.reverse.dropWhile unicode.IsSpace).reverse ++
      (t.reverse.takeWhile unicode.IsSpace).reverse := by
    rw [← List.reverse_append, List.takeWhile_append_dropWhile, List.reverse_reverse]
  have hsp : ∀ c ∈ (t.reverse.takeWhile unicode.IsSpace).reverse, unicode.IsSpace c = true := by
    intro c hc
    exact List.mem_takeWhile_imp (List.mem_reverse.mp hc)
  conv_rhs => rw [hsplit]
  exact (fieldsFrom_append_spaces _ _ hsp []).symm

theorem fieldsFrom_no_space (w : GoString) (hw : ∀ c ∈ w, unicode.IsSpace c = false) :
    ∀ cur : GoString, cur.reverse ++ w ≠ [] →
      strings.fieldsFrom w cur = [cur.reverse ++ w] := by
  induction w with
  | nil =>
    intro cur h
    have : cur ≠ [] := by simpa using h
    simp [strings.fieldsFrom, this]
  | cons c w ih =>
    intro cur _
    have hc := hw c (List.mem_cons_self _ _)
    simp only [strings.fieldsFrom, hc, Bool.false_eq_true, if_false]
    rw [ih (fun x hx => hw x (List.mem_cons_of_mem _ hx)) (c :: cur) (by simp)]
    simp

theorem mem_fieldsFrom_no_space (s : GoString) :
    ∀ cur : GoString, (∀ c ∈ cur, unicode.IsSpace c = false) →
      ∀ w ∈ strings.fieldsFrom s cur, ∀ c ∈ w, unicode.IsSpace c = false := by
  induction s with
  | nil =>
    intro cur hcur w hw c hc
    by_cases h : cur = []
    · simp [strings.fieldsFrom, h] at hw
    · simp [strings.fieldsFrom, h] at hw
      subst hw
      exact hcur c (List.mem_reverse.mp hc)
  | cons x s ih =>
    intro cur hcur w hw c hc
    by_cases hx : unicode.IsSpace x = true
    · by_cases h : cur = []
      · simp only [strings.fieldsFrom, hx, h, if_true] at hw
        exact ih [] (by simp) w hw c hc
      · simp only [strings.fieldsFrom, hx, h, if_true, if_false] at hw
        rcases List.mem_cons.mp hw with h' | h'
        · subst h'
          exact hcur c (List.mem_reverse.mp hc)
        · exact ih [] (by simp) w h' c hc
    · simp only [strings.fieldsFrom, hx, Bool.false_eq_true, if_false] at hw
      refine ih (x :: cur) ?_ w hw c hc
      intro y hy
      rcases List.mem_cons.mp hy with h' | h'
      · subst h'; simpa using hx
      · exact hcur y h'

theorem isWord_of_mem_fields (s w : GoString) (hw : w ∈ strings.Fields s) : isWord w :=
  ⟨mem_fieldsFrom_ne_nil s [] w hw, mem_fieldsFrom_no_space s [] (by simp) w hw⟩

theorem fields_of_isWord (w : GoString) (hw : isWord w) : strings.Fields w = [w] := by
  have := fieldsFrom_no_space w hw.2 [] (by simpa using hw.1)
  simpa [strings.Fields] using this

theorem fields_append_space (a b : GoString) (c : Char) (hc : unicode.IsSpace c = true) :
    strings.Fields (a ++ c :: b) = strings.Fields a ++ strings.Fields b :=
  fieldsFrom_append_space a b c hc []

/-- Words joined by single spaces split back into the same words. -/
theorem fields_joinSpace (g : List GoString) (hg : ∀ w ∈ g, isWord w) :
    strings.Fields (joinSpace g) = g := by
  induction g with
  | nil => rfl
  | cons a l ih =>
    cases l with
    | nil =>
      rw [joinSpace_singleton]
      exact fields_of_isWord a (hg a (List.mem_cons_self _ _))
    | cons b l =>
      rw [joinSpace_cons_cons, fields_append_space _ _ ' ' (by decide),
        ih (fun w hw => hg w (List.mem_cons_of_mem _ hw)),
        fields_of_isWord a (hg a (List.mem_cons_self _ _))]
      rfl


theorem fields_cons_space (c : Char) (s : GoString) (hc : unicode.IsSpace c = true) :
    strings.Fields (c :: s) = strings.Fields s := by
  simp [strings.Fields, strings.fieldsFrom, hc]

/-- Splitting at a separator made of white space keeps the words, in order. -/
theorem flatMap_fields_splitFrom (sep : GoString) (hne : sep ≠ [])
    (hsep : ∀ c ∈ sep, unicode.IsSpace c = true) (s : GoString) :
    ∀ (skip : Nat) (cur : GoString), (skip = 0 ∨ cur = []) →
      (∀ c ∈ s.take skip, unicode.IsSpace c = true) →
      (strings.splitFrom sep s skip cur).flatMap strings.Fields =
        strings.Fields (cur.reverse ++ s) := by
  induction s with
  | nil =>
    intro skip cur _ _
    simp [strings.splitFrom]
  | cons c cs ih =>
    intro skip cur hsc htake
    cases skip with
    | succ k =>
      have hcur : cur = [] := by
        rcases hsc with h | h
        · omega
        · exact h
      subst hcur
      have hc : unicode.IsSpace c = true := htake c (by simp)
      simp only [strings.splitFrom, List.reverse_nil, List.nil_append]
      rw [ih k [] (Or.inr rfl) (fun x hx => htake x (by
        simp only [List.take_succ_cons]
        exact List.mem_cons_of_mem _ hx)), fields_cons_space c cs hc]
      simp
    | zero =>
      simp only [strings.splitFrom]
      split
      · rename_i hpre
        obtain ⟨t, ht⟩ := List.isPrefixOf_iff_prefix.mp hpre
        obtain ⟨d, ds, hsepc⟩ := List.exists_cons_of_ne_nil hne
        rw [hsepc] at ht
        simp only [List.cons_append, List.cons.injEq] at ht
        obtain ⟨hd, hds⟩ := ht
        subst hd
        have hd : unicode.IsSpace d = true := hsep d (by rw [hsepc]; simp)
        have htk : ∀ x ∈ cs.take (sep.length - 1), unicode.IsSpace x = true := by
          intro x hx
          rw [← hds, hsepc] at hx
          simp only [List.length_cons, Nat.add_sub_cancel, List.take_left'] at hx
          exact hsep x (by rw [hsepc]; exact List.mem_cons_of_mem _ hx)
        rw [List.flatMap_cons, ih _ [] (Or.inr rfl) htk, fields_append_space _ _ d hd]
        simp
      · rw [ih 0 (c :: cur) (Or.inl rfl) (by simp)]
        simp

theorem flatMap_fields_split (s : GoString) :
    (strings.Split s "\n\n".toList).flatMap strings.Fields = strings.Fields s := by
  have := flatMap_fields_splitFrom "\n\n".toList (by decide) (by decide) s 0 [] (Or.inl rfl)
    (by simp)
  simpa [strings.Split] using this

theorem flatMap_fields_paragraphLines (p : GoString) :
    (paragraphLines p).flatMap strings.Fields = strings.Fields p := by
  by_cases h : strings.Fields p = []
  · rw [paragraphLines_of_fields_nil p h, h]; rfl
  · rw [paragraphLines_of_fields_ne_nil p h]
    obtain ⟨hfl, _⟩ := lineGroups_spec (strings.Fields p)
    have hword : ∀ g ∈ lineGroups (strings.Fields p), ∀ w ∈ g, isWord w := by
      intro g hg w hw
      apply isWord_of_mem_fields p w
      rw [← hfl]
      exact List.mem_flatten.mpr ⟨g, hg, hw⟩
    have hmap : ∀ gs : List (List GoString), (∀ g ∈ gs, ∀ w ∈ g, isWord w) →
        (gs.map joinSpace).flatMap strings.Fields = gs.flatten := by
      intro gs
      induction gs with
      | nil => intro _; rfl
      | cons g gs ih =>
        intro hgs
        rw [List.map_cons, List.flatMap_cons, List.flatten_cons,
          fields_joinSpace g (hgs g (List.mem_cons_self _ _)),
          ih (fun g' hg' => hgs g' (List.mem_cons_of_mem _ hg'))]
    rw [List.flatMap_append, hmap _ hword, hfl]
    simp [strings.Fields, strings.fieldsFrom]

/-- The wrapped lines hold the words of the text, in order. -/
theorem flatMap_fields_wrappedLines (content : GoString) :
    (wrappedLines content).flatMap strings.Fields = strings.Fields content := by
  rw [wrappedLines_eq_flatMap, ← flatMap_fields_split content]
  generalize strings.Split content "\n\n".toList = ps
  induction ps with
  | nil => rfl
  | cons p ps ih =>
    rw [List.flatMap_cons, List.flatMap_append, ih, flatMap_fields_paragraphLines,
      List.flatMap_cons]

theorem fields_block (ls : List GoString) :
    strings.Fields (ls.flatMap (fun l => l ++ ['\n'])) = ls.flatMap strings.Fields := by
  induction ls with
  | nil => rfl
  | cons l ls ih =>
    rw [List.flatMap_cons, List.flatMap_cons, List.append_assoc, List.singleton_append,
      fields_append_space _ _ '\n' (by decide), ih]

/-- The page loop keeps the words of the lines, in order. -/
theorem foldl_pageStep_words (pageSize : Int) (lines : List GoString) :
    ∀ (st : PageState) (block : List GoString),
      st.currentPage = block.flatMap (fun l => l ++ ['\n']) →
      ∃ block' : List GoString,
        (lines.foldl (pageStep pageSize) st).currentPage =
          block'.flatMap (fun l => l ++ ['\n']) ∧
        (lines.foldl (pageStep pageSize) st).pages.flatMap strings.Fields ++
            block'.flatMap strings.Fields =
          (st.pages.flatMap strings.Fields ++ block.flatMap strings.Fields) ++
            lines.flatMap strings.Fields := by
  induction lines with
  | nil =>
    intro st block h
    exact ⟨block, h, by simp⟩
  | cons line rest ih =>
    intro st block h
    rw [List.foldl_cons]
    by_cases hflush : st.lineCount ≥ pageSize
    · have hstep : pageStep pageSize st line =
          ⟨st.pages ++ [strings.TrimSpace st.currentPage], line ++ ['\n'], 1⟩ := by
        simp [pageStep, hflush]
      obtain ⟨block', h1, h2⟩ := ih (pageStep pageSize st line) [line] (by rw [hstep]; simp)
      refine ⟨block', h1, ?_⟩
      rw [h2, hstep]
      simp only [List.flatMap_append, List.flatMap_cons, List.flatMap_nil, List.append_nil,
        fields_trimSpace, h, fields_block, List.append_assoc]
    · have hstep : pageStep pageSize st line =
          ⟨st.pages, st.currentPage ++ line ++ ['\n'], st.lineCount + 1⟩ := by
        simp [pageStep, hflush]
      obtain ⟨block', h1, h2⟩ := ih (pageStep pageSize st line) (block ++ [line])
        (by rw [hstep, h]; simp)
      refine ⟨block', h1, ?_⟩
      rw [h2, hstep]
      simp only [List.flatMap_append, List.flatMap_cons, List.flatMap_nil, List.append_nil,
        List.append_assoc]

theorem flatMap_fields_groupPages (pageSize : Int) (lines : List GoString) :
    (groupPages pageSize lines).flatMap strings.Fields = lines.flatMap strings.Fields := by
  obtain ⟨block, h1, h2⟩ := foldl_pageStep_words pageSize lines ⟨[], [], 0⟩ [] rfl
  simp only [List.flatMap_nil, List.nil_append] at h2
  unfold groupPages
  simp only
  rw [← h2]
  split
  · rw [List.flatMap_append, List.flatMap_cons, List.flatMap_nil, List.append_nil,
      fields_trimSpace, h1, fields_block]
  · rename_i hlen
    have hnil : (lines.foldl (pageStep pageSize) ⟨[], [], 0⟩).currentPage = [] := by
      by_contra hne
      exact hlen (len_pos_of_ne_nil hne)
    rw [h1] at hnil
    have : block.flatMap strings.Fields = [] := by
      rw [← fields_block, hnil]; rfl
    rw [this, List.append_nil]

/-- C14: for every text and every page size (so for every `P >= 1`), the
white-space-delimited words of the pages `paginateContent` returns, concatenated in
page order, are the white-space-delimited words of the text, in order. -/
theorem paginateContent_preserves_words (v : CLIViewer) (content : GoString) :
    (v.paginateContent content).flatMap strings.Fields = strings.Fields content := by
  unfold CLIViewer.paginateContent
  rw [flatMap_fields_groupPages, flatMap_fields_wrappedLines]

/-! ## Theorems: navigation -/

/-- `GetChapter` succeeds on an index within the book. -/
theorem GetChapter_ok_of_in_range (r : EPUBReader) (index : Int)
    (h : 0 ≤ index ∧ index < r.GetTotalChapters) : ∃ ch, r.GetChapter index = .ok ch := by
  cases hb : r.book with
  | none => simp [EPUBReader.GetTotalChapters, hb] at h; omega
  | some book =>
    simp only [EPUBReader.GetTotalChapters, hb] at h
    have hr : ¬ (index < 0 ∨ index ≥ (book.Chapters.length : Int)) := by omega
    have hlt : index.toNat < book.Chapters.length := by omega
    refine ⟨book.Chapters[index.toNat], ?_⟩
    simp only [EPUBReader.GetChapter, hb, if_neg hr, List.getElem?_eq_getElem hlt]

theorem keepsChapter_of (v : CLIViewer) (r : Outcome Unit × CLIViewer)
    (h1 : r.1 = .ok ()) (h2 : r.2.reader = v.reader)
    (h3 : 0 ≤ r.2.currentPos.Chapter ∧ r.2.currentPos.Chapter < v.reader.GetTotalChapters) :
    keepsChapter v r :=
  ⟨h1, h2, h3.1, h3.2, by rw [h2]; exact GetChapter_ok_of_in_range _ _ h3⟩

theorem nextChapter_keeps (v : CLIViewer)
    (h : 0 ≤ v.currentPos.Chapter ∧ v.currentPos.Chapter < v.reader.GetTotalChapters) :
    keepsChapter v v.nextChapter := by
  unfold CLIViewer.nextChapter
  split
  · exact keepsChapter_of _ _ rfl rfl ⟨by simp only; omega, by simp only; omega⟩
  · exact keepsChapter_of _ _ rfl rfl h

theorem previousChapter_keeps (v : CLIViewer)
    (h : 0 ≤ v.currentPos.Chapter ∧ v.currentPos.Chapter < v.reader.GetTotalChapters) :
    keepsChapter v v.previousChapter := by
  unfold CLIViewer.previousChapter
  split
  · exact keepsChapter_of _ _ rfl rfl ⟨by simp only; omega, by simp only; omega⟩
  · exact keepsChapter_of _ _ rfl rfl h

theorem goToChapter_keeps (v : CLIViewer) (num : Int)
    (h : 0 ≤ v.currentPos.Chapter ∧ v.currentPos.Chapter < v.reader.GetTotalChapters) :
    keepsChapter v (v.goToChapter num) := by
  unfold CLIViewer.goToChapter
  split
  · rename_i hn
    exact keepsChapter_of _ _ rfl rfl ⟨hn.1, hn.2⟩
  · exact keepsChapter_of _ _ rfl rfl h

theorem nextPage_keeps (v : CLIViewer) (parse : HTMLParser)
    (h : 0 ≤ v.currentPos.Chapter ∧ v.currentPos.Chapter < v.reader.GetTotalChapters) :
    keepsChapter v (v.nextPage parse) := by
  obtain ⟨ch, hch⟩ := GetChapter_ok_of_in_range _ _ h
  unfold CLIViewer.nextPage
  simp only [hch]
  split
  · exact keepsChapter_of _ _ rfl rfl h
  · exact nextChapter_keeps v h

theorem previousPage_keeps (v : CLIViewer) (parse : HTMLParser)
    (h : 0 ≤ v.currentPos.Chapter ∧ v.currentPos.Chapter < v.reader.GetTotalChapters) :
    keepsChapter v (v.previousPage parse) := by
  unfold CLIViewer.previousPage
  split
  · exact keepsChapter_of _ _ rfl rfl h
  · obtain ⟨hok, hrd, hlo, hhi, ch, hch⟩ := previousChapter_keeps v h
    cases hpc : v.previousChapter with
    | mk o v' =>
      rw [hpc] at hok hrd hlo hhi hch
      simp only at hok hrd hlo hhi hch
      subst hok
      simp only [hch]
      exact keepsChapter_of _ _ rfl hrd ⟨hlo, hhi⟩

/-- C15: from a state whose chapter index is within the book, each of `nextPage`,
`previousPage`, `nextChapter`, `previousChapter` and `goToChapter(num)` for any
`num` returns nil, leaves the book as it was and leaves
`0 <= currentPos.Chapter < GetTotalChapters()`, so that `GetChapter` on the current
chapter succeeds. -/
theorem navigation_keeps_chapter_in_range (v : CLIViewer) (parse : HTMLParser) (num : Int)
    (h : 0 ≤ v.currentPos.Chapter ∧ v.currentPos.Chapter < v.reader.GetTotalChapters) :
    keepsChapter v (v.nextPage parse) ∧ keepsChapter v (v.previousPage parse) ∧
    keepsChapter v v.nextChapter ∧ keepsChapter v v.previousChapter ∧
    keepsChapter v (v.goToChapter num) :=
  ⟨nextPage_keeps v parse h, previousPage_keeps v parse h, nextChapter_keeps v h,
    previousChapter_keeps v h, goToChapter_keeps v num h⟩


/-- Witness of C15: the two-chapter book at chapter 0; `nextPage` moves to chapter 1. -/
theorem navigation_keeps_chapter_witness :
    (sampleViewer.nextPage sampleParse).2.currentPos = { Chapter := 1, Page := 0 } ∧
    (keepsChapter sampleViewer (sampleViewer.nextPage sampleParse) ∧
      keepsChapter sampleViewer (sampleViewer.previousPage sampleParse) ∧
      keepsChapter sampleViewer sampleViewer.nextChapter ∧
      keepsChapter sampleViewer sampleViewer.previousChapter ∧
      keepsChapter sampleViewer (sampleViewer.goToChapter 7)) :=
  ⟨by decide, navigation_keeps_chapter_in_range sampleViewer sampleParse 7 (by decide)⟩

/-- C16 as stated fails: on a book whose first chapter is a cover image, which
formats to the empty text and paginates to zero pages, `displayCurrentPage` at
`{0,0}` and `previousPage` at `{1,0}` both return nil and leave `Page = -1`. -/
theorem displayCurrentPage_page_negative :
    (coverViewer.displayCurrentPage sampleParse).1 = .ok () ∧
    (coverViewer.displayCurrentPage sampleParse).2.currentPos = { Chapter := 0, Page := -1 } ∧
    ({ coverViewer with currentPos := { Chapter := 1, Page := 0 } }.previousPage sampleParse).1 =
      .ok () ∧
    ({ coverViewer with currentPos := { Chapter := 1, Page := 0 } }.previousPage
        sampleParse).2.currentPos = { Chapter := 0, Page := -1 } ∧
    coverViewer.paginateContent
      (coverViewer.formatContent sampleParse "<img src=\"cover.jpg\"/>".toList) = [] := by
  refine ⟨by decide, by decide, by decide, by decide, by decide⟩

/-- `displayCurrentPage` clamps the page to `len(pages) - 1`, which is -1 only when
there is no page. -/
theorem displayCurrentPage_page (v : CLIViewer) (parse : HTMLParser)
    (hp : 0 ≤ v.currentPos.Page) :
    -1 ≤ (v.displayCurrentPage parse).2.currentPos.Page ∧
    (currentPages v parse ≠ [] → 0 ≤ (v.displayCurrentPage parse).2.currentPos.Page) := by
  unfold CLIViewer.displayCurrentPage currentPages
  cases hch : v.reader.GetChapter v.currentPos.Chapter with
  | err e => exact ⟨by simp only; omega, fun _ => hp⟩
  | panic m => exact ⟨by simp only; omega, fun _ => hp⟩
  | ok chapter =>
    simp only
    split
    · refine ⟨by simp only; omega, fun hne => ?_⟩
      have := List.length_pos.mpr hne
      simp only
      omega
    · exact ⟨by simp only; omega, fun _ => hp⟩

/-- `previousPage` lands on page `len(pages) - 1` of the chapter it moves to. -/
theorem previousPage_page (v : CLIViewer) (parse : HTMLParser)
    (hp : 0 ≤ v.currentPos.Page) :
    -1 ≤ (v.previousPage parse).2.currentPos.Page ∧
    (currentPages (v.previousPage parse).2 parse ≠ [] →
      0 ≤ (v.previousPage parse).2.currentPos.Page) := by
  unfold CLIViewer.previousPage
  split
  · exact ⟨by simp only; omega, fun _ => by simp only; omega⟩
  · have hpc : v.previousChapter.1 = .ok () ∧ 0 ≤ v.previousChapter.2.currentPos.Page := by
      unfold CLIViewer.previousChapter
      split
      · exact ⟨rfl, by simp⟩
      · exact ⟨rfl, hp⟩
    cases hv : v.previousChapter with
    | mk o v' =>
      rw [hv] at hpc
      obtain ⟨ho, hp'⟩ := hpc
      simp only at ho hp'
      subst ho
      simp only
      cases hch : v'.reader.GetChapter v'.currentPos.Chapter with
      | err e => exact ⟨by simp only; omega, fun _ => hp'⟩
      | panic m => exact ⟨by simp only; omega, fun _ => hp'⟩
      | ok chapter =>
        simp only
        refine ⟨by omega, fun hne => ?_⟩
        have hcp : currentPages
            { v' with currentPos :=
                { Chapter := v'.currentPos.Chapter,
                  Page := ((v'.paginateContent
                    (v'.formatContent parse chapter.Content)).length : Int) - 1 } } parse =
            v'.paginateContent (v'.formatContent parse chapter.Content) := by
          simp only [currentPages, hch]
          rfl
        rw [hcp] at hne
        have := List.length_pos.mpr hne
        omega

/-- C16, amended: from a state with a valid chapter index and `Page >= 0`, `nextPage`,
`nextChapter`, `previousChapter` and `goToChapter` leave `Page >= 0`;
`displayCurrentPage` and `previousPage` leave `Page >= -1`, and `Page >= 0` whenever
the chapter that is current afterwards paginates to at least one page. -/
theorem navigation_page_lower_bound (v : CLIViewer) (parse : HTMLParser) (num : Int)
    (hc : 0 ≤ v.currentPos.Chapter ∧ v.currentPos.Chapter < v.reader.GetTotalChapters)
    (hp : 0 ≤ v.currentPos.Page) :
    0 ≤ (v.nextPage parse).2.currentPos.Page ∧
    0 ≤ v.nextChapter.2.currentPos.Page ∧
    0 ≤ v.previousChapter.2.currentPos.Page ∧
    0 ≤ (v.goToChapter num).2.currentPos.Page ∧
    (-1 ≤ (v.displayCurrentPage parse).2.currentPos.Page ∧
      (currentPages v parse ≠ [] → 0 ≤ (v.displayCurrentPage parse).2.currentPos.Page)) ∧
    (-1 ≤ (v.previousPage parse).2.currentPos.Page ∧
      (currentPages (v.previousPage parse).2 parse ≠ [] →
        0 ≤ (v.previousPage parse).2.currentPos.Page)) := by
  have hnc : 0 ≤ v.nextChapter.2.currentPos.Page := by
    unfold CLIViewer.nextChapter
    split
    · simp
    · exact hp
  refine ⟨?_, hnc, ?_, ?_, displayCurrentPage_page v parse hp, previousPage_page v parse hp⟩
  · obtain ⟨ch, hch⟩ := GetChapter_ok_of_in_range _ _ hc
    unfold CLIViewer.nextPage
    simp only [hch]
    split
    · simp only; omega
    · exact hnc
  · unfold CLIViewer.previousChapter
    split
    · simp
    · exact hp
  · unfold CLIViewer.goToChapter
    split
    · simp
    · exact hp

/-- Witness of the amended C16: the book with the cover image, at `{0,0}`. -/
theorem navigation_page_lower_bound_witness :
    0 ≤ (coverViewer.nextPage sampleParse).2.currentPos.Page ∧
    0 ≤ coverViewer.nextChapter.2.currentPos.Page ∧
    0 ≤ coverViewer.previousChapter.2.currentPos.Page ∧
    0 ≤ (coverViewer.goToChapter 1).2.currentPos.Page ∧
    (-1 ≤ (coverViewer.displayCurrentPage sampleParse).2.currentPos.Page ∧
      (currentPages coverViewer sampleParse ≠ [] →
        0 ≤ (coverViewer.displayCurrentPage sampleParse).2.currentPos.Page)) ∧
    (-1 ≤ (coverViewer.previousPage sampleParse).2.currentPos.Page ∧
      (currentPages (coverViewer.previousPage sampleParse).2 sampleParse ≠ [] →
        0 ≤ (coverViewer.previousPage sampleParse).2.currentPos.Page)) :=
  navigation_page_lower_bound coverViewer sampleParse 1 (by decide) (by decide)

end Ereader
